import Mathlib

/-!
# Verification of the nwps-API-viewer time-series / flood-risk core (src/logic.py)

Shallow embedding of the pure data-transformation functions of `src/logic.py`:
`parse_timeseries`, `preprocess_stageflow`, `interpolate_flow`,
`interpolate_stage_cached`, `compute_percentile_bands`,
`compute_and_interpolate_percentiles` and `compute_exceedance_probabilities`.

Modelling conventions:
* Machine floats are modelled by exact rationals (`ℚ`); `NaN`/`pd.NA`/`NaT`
  are modelled by `Option`/a dedicated `Val.na` constructor.
* Timestamps are modelled as integers at whole-hour granularity (the unit of
  the `resample("1h")` grid in `compute_percentile_bands`); a raw string cell
  that `pd.to_datetime` parses to a timestamp is modelled as `Val.time t`.
  Sub-hour timestamps and numeric epoch values fed to `to_datetime` are
  outside the model; no claim depends on them.
* Python exceptions that can escape a function are modelled with
  `Except PyErr`; exceptions caught inside the source (the `try`/`except`
  blocks of `parse_timeseries` and `compute_exceedance_probabilities`)
  are resolved to the value the handler produces.
* `pandas` sorts (`sort_index`, `sort_values`) use an unstable quicksort by
  default; they are modelled by a stable insertion sort, which agrees with
  the source whenever sort keys are distinct.  No claim depends on the
  relative order of rows with equal keys.
* `np.interp` is modelled faithfully for sorted sample points of any length
  and for arbitrary sample points of length ≤ 4 (where numpy uses its
  `linear_search` routine after the two boundary shortcuts); numpy's
  guess-based binary search for longer unsorted arrays is not modelled.
-/

/-- A raw cell value as it appears in a provider record / DataFrame cell.
`na` models `NaN`/missing; `num` a numeric value; `time t` a string that
`pd.to_datetime` parses to the timestamp `t` (in whole hours);
`sentinel` the literal string `0001-01-01T00:00:00Z`; `badstr` any other
string, which `pd.to_datetime(errors="coerce")` turns into `NaT`. -/
inductive Val
  | na
  | num (q : ℚ)
  | time (t : ℤ)
  | sentinel
  | badstr (s : String)
deriving DecidableEq, Repr

/-- One raw record: a field-name → value mapping (dict keys are unique;
lookups take the first occurrence). -/
abbrev RawRecord := List (String × Val)

/-- Python exceptions that can escape the modelled functions. -/
inductive PyErr
  | keyError
  | valueError
deriving DecidableEq, Repr

/-- Stable insertion of `a` into a list, before the first element whose key
is not smaller: used to model sorting a table by one column. -/
def insertK {α β : Type} [LinearOrder β] (key : α → β) (a : α) : List α → List α
  | [] => [a]
  | b :: t => if key b < key a then b :: insertK key a t else a :: b :: t

/-- Stable insertion sort by a key. Models `sort_index`/`sort_values`
(see the header note on sort stability). -/
def insSortK {α β : Type} [LinearOrder β] (key : α → β) : List α → List α
  | [] => []
  | a :: t => insertK key a (insSortK key t)

/-- `(i, a)` pairs of a list with indices starting at `n`
(models row provenance through the cleaning pipeline). -/
def enumFromIdx {α : Type} (n : Nat) : List α → List (Nat × α)
  | [] => []
  | a :: t => (n, a) :: enumFromIdx (n + 1) t

/-- Append a key to a column list if it is not present yet: `pd.DataFrame`
forms its columns as the union of the records' keys in first-seen order. -/
def addKey (acc : List String) (k : String) : List String :=
  if k ∈ acc then acc else acc ++ [k]

/-- Columns of `pd.DataFrame(data)`: union of all record keys in order of
first appearance. -/
def rawColumns (data : List RawRecord) : List String :=
  data.foldl (fun acc r => r.foldl (fun a p => addKey a p.1) acc) []

/-- `rename(columns=column_map)` applied to one column name. -/
def applyMap (cmap : List (String × String)) (c : String) : String :=
  (cmap.lookup c).getD c

/-- The columns of the renamed frame as (raw name, renamed name) pairs.
Renaming can produce duplicate column names; the pairs keep the positional
correspondence. -/
def colPairs (data : List RawRecord) (cmap : List (String × String)) :
    List (String × String) :=
  (rawColumns data).map (fun c => (c, applyMap cmap c))

/-- The raw name of the unique column renamed to `validTime`, when there is
exactly one.  With zero such columns `parse_timeseries` returns the empty
frame at its explicit guard; with two or more, `pd.to_datetime` applied to
the resulting two-column selection raises inside the `try` block and the
handler returns the empty frame — both cases are `none` here. -/
def vtRawName (data : List RawRecord) (cmap : List (String × String)) :
    Option String :=
  match (colPairs data cmap).filter (fun p => p.2 == "validTime") with
  | [p] => some p.1
  | _ => none

/-- The non-time columns of the renamed frame (those that remain as data
columns after `set_index("validTime")`). -/
def otherPairs (data : List RawRecord) (cmap : List (String × String)) :
    List (String × String) :=
  (colPairs data cmap).filter (fun p => !(p.2 == "validTime"))

/-- Cell of a record at a raw column name; a record lacking the key gets
`NaN` when the DataFrame is assembled. -/
def cellD (r : RawRecord) (c : String) : Val :=
  (r.lookup c).getD Val.na

/-- `pd.to_datetime(value, errors="coerce")` on one cell (cf. the header
note: only time-strings parse in the model). -/
def toDatetime : Val → Option ℤ
  | Val.time t => some t
  | _ => none

/-- One cleaned row: original record position, parsed timestamp (the index),
and the cells of the non-time columns in column order. -/
structure PRow where
  origIdx : Nat
  time : ℤ
  cells : List Val
deriving DecidableEq, Repr

/-- A normalized frame: named non-time columns plus time-indexed rows. -/
structure PFrame where
  columns : List String
  rows : List PRow
deriving DecidableEq, Repr

def emptyPFrame : PFrame := ⟨[], []⟩

/-- `df.empty` — true when the frame has no rows or no columns. -/
def pfEmpty (f : PFrame) : Bool :=
  f.rows.isEmpty || f.columns.isEmpty

/-- `.replace(-999, pd.NA)` on one cell. -/
def replaceNoData (v : Val) : Val :=
  match v with
  | Val.num q => if q = -999 then Val.na else Val.num q
  | w => w

/-- Build the cleaned row for record `r` at original position `i`. -/
def mkRow (ops : List (String × String)) (i : Nat) (r : RawRecord) (t : ℤ) :
    PRow :=
  ⟨i, t, ops.map (fun p => cellD r p.1)⟩

/-- `parse_timeseries` (src/logic.py lines 8–33): build the frame, require a
unique `validTime` column, drop rows whose raw time is the literal sentinel
`0001-01-01T00:00:00Z` before parsing, coerce-parse timestamps and drop the
unparsable ones, set the time index and sort by it, replace the numeric
sentinel `-999` by missing, and drop every row still missing any value. -/
def parse_timeseries (data : List RawRecord) (cmap : List (String × String)) :
    PFrame :=
  if data.isEmpty then emptyPFrame
  else
    match vtRawName data cmap with
    | none => emptyPFrame
    | some vt =>
      let ops := otherPairs data cmap
      let rows1 := (enumFromIdx 0 data).filter
        (fun p => !(cellD p.2 vt == Val.sentinel))
      let rows2 := rows1.filterMap
        (fun p => (toDatetime (cellD p.2 vt)).map (mkRow ops p.1 p.2))
      let rows3 := insSortK PRow.time rows2
      let rows4 := rows3.map (fun r => { r with cells := r.cells.map replaceNoData })
      let rows5 := rows4.filter (fun r => r.cells.all (fun v => !(v == Val.na)))
      ⟨ops.map (fun p => p.2), rows5⟩

/-- A rating-curve payload `rating_df_dict : Dict[str, List]` / the frame
`pd.DataFrame(rating_df_dict)` built from it: an association list from
column name to column values.  `pd.DataFrame` requires the lists to have
equal length (a ragged dict raises at construction); theorems that need
this carry a `rectangular` hypothesis. -/
abbrev RatingDict := List (String × List ℚ)

/-- All columns of a rating dict have the same length. -/
def rectangular (d : RatingDict) : Prop :=
  ∀ p ∈ d, ∀ q ∈ d, (p.2 : List ℚ).length = (q.2 : List ℚ).length

/-- `pd.DataFrame(rating_df_dict).empty`: no columns, or zero rows. -/
def rEmptyTable (d : RatingDict) : Bool :=
  d.isEmpty || d.all (fun p => p.2.isEmpty)

/-- numpy's search for the interpolation interval: the index `j` such that
`x` falls between `xp[j]` and `xp[j+1]`.  Models `linear_search` (start
index 1): the first `i ≥ 1` with `¬ (xp[i] ≤ x)`, minus one.  numpy uses
this routine verbatim for `len ≤ 4`; for longer *sorted* arrays its binary
search returns the same index (see the header note). -/
def searchIdx (x : ℚ) (xp : List ℚ) : Nat :=
  ((xp.drop 1).takeWhile (fun a => a ≤ x)).length

/-- One point of `np.interp(x, xp, fp)` (`arr_interp` in numpy's
`compiled_base.c`): constant for a single sample point, the boundary
shortcuts `x > xp[-1] → fp[-1]` and `x < xp[0] → fp[0]`, then the interval
search and the slope formula, with the exact-hit branches `j = len-1` and
`xp[j] = x` taken before the division. -/
def np_interp_elem (x : ℚ) (xp fp : List ℚ) : ℚ :=
  if xp.length ≤ 1 then fp.getD 0 0
  else if x > xp.getLastD 0 then fp.getLastD 0
  else if x < xp.headD 0 then fp.headD 0
  else
    let j := searchIdx x xp
    if j = xp.length - 1 then fp.getD j 0
    else if xp.getD j 0 = x then fp.getD j 0
    else
      fp.getD j 0 +
        (fp.getD (j + 1) 0 - fp.getD j 0) / (xp.getD (j + 1) 0 - xp.getD j 0) *
          (x - xp.getD j 0)

/-- `np.interp(xs, xp, fp)`: raises `ValueError` on an empty sample-point
array or a length mismatch, otherwise interpolates pointwise. -/
def np_interp (xs xp fp : List ℚ) : Except PyErr (List ℚ) :=
  if xp.isEmpty then Except.error PyErr.valueError
  else if xp.length ≠ fp.length then Except.error PyErr.valueError
  else Except.ok (xs.map (fun x => np_interp_elem x xp fp))

/-- `interpolate_flow` (src/logic.py lines 94–107): empty rating frame →
all-`NaN` series of the input's length; otherwise `np.interp` of the stage
values over the `stage`/`flow` columns *in the order they are given* (no
sort).  A missing column raises `KeyError`. -/
def interpolate_flow (stage : List ℚ) (d : RatingDict) :
    Except PyErr (List (Option ℚ)) :=
  if rEmptyTable d then Except.ok (stage.map (fun _ => none))
  else
    match d.lookup "stage", d.lookup "flow" with
    | some xp, some fp =>
      match np_interp stage xp fp with
      | Except.ok ys => Except.ok (ys.map some)
      | Except.error e => Except.error e
    | _, _ => Except.error PyErr.keyError

/-- `interpolate_stage_cached` (src/logic.py lines 74–91): the frame is
sorted by the `flow` column *before* the emptiness guard (so a dict without
a `flow` column raises `KeyError` even when empty); an empty frame then
yields an all-`NaN` series; otherwise `np.interp` of the flow values over
the flow-sorted `(flow, stage)` pairs. -/
def interpolate_stage_cached (flow : List ℚ) (d : RatingDict) :
    Except PyErr (List (Option ℚ)) :=
  match d.lookup "flow" with
  | none => Except.error PyErr.keyError
  | some fcol =>
    if rEmptyTable d then Except.ok (flow.map (fun _ => none))
    else
      match d.lookup "stage" with
      | none => Except.error PyErr.keyError
      | some scol =>
        let sorted := insSortK Prod.fst (fcol.zip scol)
        match np_interp flow (sorted.map Prod.fst) (sorted.map Prod.snd) with
        | Except.ok ys => Except.ok (ys.map some)
        | Except.error e => Except.error e

/-- Numeric view of a cell (`None` for anything `np.interp` could not take
as a float). -/
def valNumQ : Val → Option ℚ
  | Val.num q => some q
  | _ => none

/-- Extract a numeric column by name.  `None` models the shapes on which the
source raises inside numpy: a duplicated canonical column name (the
selection is then a two-column frame) or a non-numeric cell. -/
def getNumCol (f : PFrame) (c : String) : Option (List ℚ) :=
  if f.columns.count c = 1 then
    f.rows.mapM (fun r => valNumQ (r.cells.getD (f.columns.indexOf c) Val.na))
  else none

/-- Write a series back as a column: `df[c] = series` overwrites the column
in place when it exists, else appends it as the last column. -/
def setCol (f : PFrame) (c : String) (vals : List Val) : PFrame :=
  if c ∈ f.columns then
    ⟨f.columns, (f.rows.zip vals).map
      (fun p => { p.1 with cells := p.1.cells.set (f.columns.indexOf c) p.2 })⟩
  else
    ⟨f.columns ++ [c], (f.rows.zip vals).map
      (fun p => { p.1 with cells := p.1.cells ++ [p.2] })⟩

/-- An interpolated value written back into a DataFrame cell. -/
def ovVal : Option ℚ → Val
  | some q => Val.num q
  | none => Val.na

/-- `preprocess_stageflow` (src/logic.py lines 37–63): empty raw data →
empty frame; empty parse → that frame; empty rating table → the parsed
frame unchanged; else, when a `stage_ft` column is present, `flow_kcfs` is
(re)computed by `interpolate_flow` — regardless of whether `flow_kcfs`
already exists — and only otherwise a `flow_cfs` column leads to deriving
`stage_ft` via `interpolate_stage_cached`. -/
def preprocess_stageflow (raw : List RawRecord) (cmap : List (String × String))
    (d : RatingDict) : Except PyErr PFrame :=
  if raw.isEmpty then Except.ok emptyPFrame
  else
    let df := parse_timeseries raw cmap
    if pfEmpty df then Except.ok df
    else if rEmptyTable d then Except.ok df
    else if df.columns.contains "stage_ft" then
      match getNumCol df "stage_ft" with
      | none => Except.error PyErr.valueError
      | some sv =>
        match interpolate_flow sv d with
        | Except.error e => Except.error e
        | Except.ok fv => Except.ok (setCol df "flow_kcfs" (fv.map ovVal))
    else if df.columns.contains "flow_cfs" then
      match getNumCol df "flow_cfs" with
      | none => Except.error PyErr.valueError
      | some fv =>
        match interpolate_stage_cached fv d with
        | Except.error e => Except.error e
        | Except.ok sv => Except.ok (setCol df "stage_ft" (sv.map ovVal))
    else Except.ok df

/-- An ensemble table: one column per member, time-indexed rows, missing
cells are `NaN` (`none`). -/
structure Ensemble where
  cols : List String
  rows : List (ℤ × List (Option ℚ))
deriving DecidableEq, Repr

/-- `ensemble_df.empty`. -/
def ensEmpty (e : Ensemble) : Bool :=
  e.rows.isEmpty || e.cols.isEmpty

/-- A time-indexed value series (index, value) with possible `NaN`s. -/
abbrev Series := List (ℤ × Option ℚ)

/-- The seven percentile levels of `compute_percentile_bands`, with exact
rationals in place of the float literals `0.05 … 0.95`. -/
def percKeys : List (String × ℚ) :=
  [("p05", 5 / 100), ("p10", 10 / 100), ("p25", 25 / 100), ("p50", 50 / 100),
   ("p75", 75 / 100), ("p90", 90 / 100), ("p95", 95 / 100)]

/-- The linear-interpolation quantile of a *sorted, non-empty* value list at
level `q` (pandas/numpy default method: fractional rank `h = q·(m-1)`,
linear between the neighbouring order statistics). -/
def qlin (q : ℚ) (v : List ℚ) : ℚ :=
  let m := v.length
  let h := q * ((m : ℚ) - 1)
  let i := min ⌊h⌋.toNat (m - 1)
  let lo := v.getD i 0
  let hi := v.getD (min (i + 1) (m - 1)) 0
  lo + (h - (i : ℚ)) * (hi - lo)

/-- `df.quantile(q, axis=1)` on one row: drop the `NaN`s, sort, interpolate;
`NaN` when the row has no valid value. -/
def quantileOfRow (q : ℚ) (cells : List (Option ℚ)) : Option ℚ :=
  let v := insSortK id (cells.filterMap id)
  if v.isEmpty then none else some (qlin q v)

/-- Column `j` contains at least one valid value (columns failing this are
removed by `dropna(axis=1, how="all")`). -/
def colHasValue (rows : List (ℤ × List (Option ℚ))) (j : Nat) : Bool :=
  rows.any (fun r => (r.2.getD j none).isSome)

/-- `df.empty` after `dropna(axis=1, how="all")`: no rows, or every column
entirely `NaN`. -/
def ensKeptEmpty (e : Ensemble) : Bool :=
  e.rows.isEmpty ||
    (List.range e.cols.length).all (fun j => !(colHasValue e.rows j))

/-- The raw cross-member percentile series at level `q`: one quantile per
native timestamp.  Dropping the all-`NaN` columns beforehand removes only
cells that are `none` in every row, so the per-row list of *valid* values —
and hence the quantile — is unchanged; the drop is therefore only
observable through the emptiness guard `ensKeptEmpty`. -/
def rawPercSeries (e : Ensemble) (q : ℚ) : Series :=
  e.rows.map (fun r => (r.1, quantileOfRow q r.2))

/-- The valid (non-`NaN`) points of a series. -/
def seriesValids (s : Series) : List (ℤ × ℚ) :=
  s.filterMap (fun e => e.2.map (fun v => (e.1, v)))

/-- `.interpolate("time")` at one target timestamp `t` of the hourly grid:
keep an existing valid value; otherwise interpolate linearly in time
between the last valid point before `t` and the first after; leading gaps
(no valid point before) stay `NaN` (default `limit_direction="forward"`),
trailing gaps (no valid point after) take the last valid value. -/
def timeInterpGap (s : Series) (t : ℤ) : Option ℚ :=
  match (seriesValids s |>.filter (fun p => p.1 < t)).getLast?,
        (seriesValids s |>.filter (fun p => t < p.1)).head? with
  | some a, some b =>
    some (a.2 + (b.2 - a.2) * ((t - a.1 : ℤ) : ℚ) / ((b.1 - a.1 : ℤ) : ℚ))
  | some a, none => some a.2
  | none, _ => none

def timeInterpAt (s : Series) (t : ℤ) : Option ℚ :=
  match s.lookup t with
  | some (some v) => some v
  | _ => timeInterpGap s t

/-- The hourly timestamps from `t0` to `tN` inclusive. -/
def hourGrid (t0 tN : ℤ) : List ℤ :=
  (List.range (tN - t0 + 1).toNat).map (fun k => t0 + (k : ℤ))

/-- `s.resample("1h").interpolate("time")` for a (sorted, hour-aligned)
series: upsample to the hourly grid spanning the series' index, keeping
original values and filling the new points by time interpolation. -/
def resampleHourly (s : Series) : Series :=
  match s with
  | [] => []
  | e :: _ =>
    (hourGrid e.1 (s.getLastD e).1).map (fun t => (t, timeInterpAt s t))

/-- `compute_percentile_bands` (src/logic.py lines 205–232): drop all-`NaN`
member columns; if nothing is left, the seven named *empty* series;
otherwise the seven cross-member quantile series, each resampled onto the
hourly grid. -/
def compute_percentile_bands (e : Ensemble) : List (String × Series) :=
  if ensKeptEmpty e then percKeys.map (fun p => (p.1, []))
  else percKeys.map (fun p => (p.1, resampleHourly (rawPercSeries e p.2)))

/-- `compute_and_interpolate_percentiles` (src/logic.py lines 129–154): an
empty ensemble short-circuits to the *empty dict* `{}`; otherwise each of
the seven band series is projected through
`np.interp(·, rating_df["flow"], rating_df["stage"])` with the rating
columns in the order given (no sort, no emptiness guard): a missing column
raises `KeyError`, an empty or length-mismatched curve raises `ValueError`
from `np.interp`, and `NaN` band values project to `NaN`. -/
def compute_and_interpolate_percentiles (e : Ensemble) (d : RatingDict) :
    Except PyErr (List (String × Series)) :=
  if ensEmpty e then Except.ok []
  else
    match d.lookup "flow", d.lookup "stage" with
    | some fl, some st =>
      if fl.isEmpty then Except.error PyErr.valueError
      else if fl.length ≠ st.length then Except.error PyErr.valueError
      else
        Except.ok ((compute_percentile_bands e).map (fun p =>
          (p.1, p.2.map (fun x =>
            (x.1, x.2.map (fun v => np_interp_elem v fl st))))))
    | _, _ => Except.error PyErr.keyError

/-- The rows of the ensemble inside the window `[ps, pe]`
(`ensemble_df.loc[period_start:period_end]`, label slicing is inclusive). -/
def windowRows (e : Ensemble) (ps pe : ℤ) : List (ℤ × List (Option ℚ)) :=
  e.rows.filter (fun r => decide (ps ≤ r.1) && decide (r.1 ≤ pe))

/-- Member column `j` of a row list. -/
def colSeries (rows : List (ℤ × List (Option ℚ))) (j : Nat) : List (Option ℚ) :=
  rows.map (fun r => r.2.getD j none)

/-- The per-member body of the exceedance loop (src/logic.py lines 175–194):
a member with no valid sample in the window gets the empty stage array and
the flag `False`; otherwise its valid flow values are projected to stage by
`np.interp` and the flag is whether *any* projected stage strictly exceeds
the threshold; any exception (missing rating column, empty curve) is caught
and yields `False`. -/
def memberExceeds (d : RatingDict) (threshold : ℚ) (series : List (Option ℚ)) :
    Bool :=
  let valid := series.filterMap id
  if valid.isEmpty then false
  else
    match d.lookup "flow", d.lookup "stage" with
    | some fl, some st =>
      match np_interp valid fl st with
      | Except.ok ys => ys.any (fun y => threshold < y)
      | Except.error _ => false
    | _, _ => false

/-- The exceedance flags of all member columns for one threshold. -/
def exceedFlags (e : Ensemble) (d : RatingDict) (threshold : ℚ) (ps pe : ℤ) :
    List Bool :=
  (List.range e.cols.length).map
    (fun j => memberExceeds d threshold (colSeries (windowRows e ps pe) j))

/-- `np.mean(flags) * 100`: `NaN` (`none`) for an empty flag list. -/
def pctOfFlags (flags : List Bool) : Option ℚ :=
  if flags.isEmpty then none
  else some (100 * (flags.count true : ℚ) / (flags.length : ℚ))

/-- `compute_exceedance_probabilities` (src/logic.py lines 156–201): restrict
to the window, compute one exceedance flag per member column and threshold,
and report the percentage of exceeding members per threshold.  A flood line
is `(name, (stage threshold, display colour))`; only the threshold is used. -/
def compute_exceedance_probabilities (e : Ensemble) (d : RatingDict)
    (flood_lines : List (String × ℚ × String)) (ps pe : ℤ) :
    List (String × Option ℚ) :=
  flood_lines.map (fun l => (l.1, pctOfFlags (exceedFlags e d l.2.1 ps pe)))

/-- Spec-described variant of `stage_to_flow`, for the refinement comparison
of claim C5 only: identical to `interpolate_flow` except that the
(stage, flow) breakpoints are sorted by the independent variable (stage)
before use, as §4.2 of the spec prescribes for both directions. -/
def interpolate_flow_sortedSpec (stage : List ℚ) (d : RatingDict) :
    Except PyErr (List (Option ℚ)) :=
  if rEmptyTable d then Except.ok (stage.map (fun _ => none))
  else
    match d.lookup "stage", d.lookup "flow" with
    | some xp, some fp =>
      let sorted := insSortK Prod.fst (xp.zip fp)
      match np_interp stage (sorted.map Prod.fst) (sorted.map Prod.snd) with
      | Except.ok ys => Except.ok (ys.map some)
      | Except.error e => Except.error e
    | _, _ => Except.error PyErr.keyError

/-- The value of percentile band `k` at timestamp `t` (`none` when the key
or the timestamp is absent, or the stored value is `NaN`). -/
def bandAt (bands : List (String × Series)) (k : String) (t : ℤ) : Option ℚ :=
  match bands.lookup k with
  | some s =>
    match s.lookup t with
    | some v => v
    | none => none
  | none => none

/-- The cells of column `c` of a normalized frame (the first column of that
name, which is the unique one in all non-degenerate frames). -/
def colCells (f : PFrame) (c : String) : List Val :=
  f.rows.map (fun r => r.cells.getD (f.columns.indexOf c) Val.na)

/-- Pointwise order between possibly-missing values: missing corresponds to
missing, and present values are ordered.  Used to state the percentile
ordering invariant across band levels. -/
def OptLe : Option ℚ → Option ℚ → Prop
  | none, none => True
  | some a, some b => a ≤ b
  | _, _ => False

/-- Order between two series entries: equal timestamps, ordered values. -/
def EntryLe (x y : ℤ × Option ℚ) : Prop :=
  x.1 = y.1 ∧ OptLe x.2 y.2

/-! ## Generic helper lemmas: sorting, enumeration, indexed access -/

theorem mem_insertK {α β : Type} [LinearOrder β] (key : α → β) (a x : α) :
    ∀ l : List α, x ∈ insertK key a l ↔ x = a ∨ x ∈ l
  | [] => by simp [insertK]
  | b :: t => by
    simp only [insertK]
    by_cases hc : key b < key a
    · rw [if_pos hc]
      simp only [List.mem_cons, mem_insertK key a x t]
      tauto
    · rw [if_neg hc]
      simp only [List.mem_cons]

theorem length_insertK {α β : Type} [LinearOrder β] (key : α → β) (a : α) :
    ∀ l : List α, (insertK key a l).length = l.length + 1
  | [] => rfl
  | b :: t => by
    simp only [insertK]
    by_cases hc : key b < key a
    · rw [if_pos hc]
      simp [length_insertK key a t]
    · rw [if_neg hc]
      simp

theorem length_insSortK {α β : Type} [LinearOrder β] (key : α → β) :
    ∀ l : List α, (insSortK key l).length = l.length
  | [] => rfl
  | a :: t => by
    simp [insSortK, length_insertK, length_insSortK key t]

theorem mem_insSortK {α β : Type} [LinearOrder β] (key : α → β) (x : α) :
    ∀ l : List α, x ∈ insSortK key l ↔ x ∈ l
  | [] => Iff.rfl
  | a :: t => by
    simp [insSortK, mem_insertK, mem_insSortK key x t]

theorem insertK_sorted {α β : Type} [LinearOrder β] (key : α → β) (a : α)
    (l : List α) (h : l.Pairwise (fun x y => key x ≤ key y)) :
    (insertK key a l).Pairwise (fun x y => key x ≤ key y) := by
  induction l with
  | nil => simp [insertK]
  | cons b t ih =>
    rw [List.pairwise_cons] at h
    simp only [insertK]
    by_cases hc : key b < key a
    · rw [if_pos hc]
      refine List.Pairwise.cons ?_ (ih h.2)
      intro x hx
      rcases (mem_insertK key a x t).mp hx with rfl | hx
      · exact le_of_lt hc
      · exact h.1 x hx
    · rw [if_neg hc]
      refine List.Pairwise.cons ?_ (List.Pairwise.cons h.1 h.2)
      intro x hx
      rcases List.mem_cons.mp hx with rfl | hx
      · exact le_of_not_lt hc
      · exact le_trans (le_of_not_lt hc) (h.1 x hx)

theorem insSortK_sorted {α β : Type} [LinearOrder β] (key : α → β) :
    ∀ l : List α, (insSortK key l).Pairwise (fun x y => key x ≤ key y)
  | [] => List.Pairwise.nil
  | a :: t => insertK_sorted key a _ (insSortK_sorted key t)

theorem insertK_eq_cons {α β : Type} [LinearOrder β] (key : α → β) (a : α)
    (l : List α) (h : ∀ b ∈ l, ¬ key b < key a) : insertK key a l = a :: l := by
  cases l with
  | nil => rfl
  | cons b t => simp [insertK, h b (List.mem_cons_self b t)]

theorem insSortK_eq_self {α β : Type} [LinearOrder β] (key : α → β) :
    ∀ l : List α, l.Pairwise (fun x y => key x ≤ key y) → insSortK key l = l
  | [], _ => rfl
  | a :: t, h => by
    rw [List.pairwise_cons] at h
    simp only [insSortK]
    rw [insSortK_eq_self key t h.2]
    exact insertK_eq_cons key a t (fun b hb => not_lt.mpr (h.1 b hb))

theorem mem_enumFromIdx {α : Type} {i : Nat} {a : α} :
    ∀ {n : Nat} {l : List α},
      (i, a) ∈ enumFromIdx n l → n ≤ i ∧ l.get? (i - n) = some a := by
  intro n l
  induction l generalizing n with
  | nil => intro h; exact absurd h (List.not_mem_nil _)
  | cons b t ih =>
    intro h
    rcases List.mem_cons.mp h with h1 | h1
    · rw [Prod.mk.injEq] at h1
      obtain ⟨rfl, rfl⟩ := h1
      exact ⟨le_refl _, by simp⟩
    · obtain ⟨hn, hg⟩ := ih h1
      refine ⟨le_trans (Nat.le_succ n) hn, ?_⟩
      have : i - n = (i - (n + 1)) + 1 := by omega
      rw [this]
      simpa using hg

theorem getD_eq_get {α : Type} (l : List α) (d : α) {i : Nat}
    (h : i < l.length) : l.getD i d = l.get ⟨i, h⟩ := by
  rw [List.getD_eq_getElem?_getD, List.getElem?_eq_getElem h]
  rfl

theorem pairwise_getD {α : Type} [Inhabited α] {R : α → α → Prop}
    {l : List α} (h : l.Pairwise R) {i j : Nat} (hij : i < j)
    (hj : j < l.length) : R (l.getD i default) (l.getD j default) := by
  have hi : i < l.length := lt_trans hij hj
  rw [getD_eq_get l default hi, getD_eq_get l default hj]
  exact List.pairwise_iff_get.mp h ⟨i, hi⟩ ⟨j, hj⟩ hij

theorem pairwise_le_getD {l : List ℚ} (h : l.Pairwise (· ≤ ·)) {i j : Nat}
    (hij : i ≤ j) (hj : j < l.length) : l.getD i 0 ≤ l.getD j 0 := by
  rcases Nat.lt_or_ge i j with hlt | hge
  · exact pairwise_getD h hlt hj
  · have : i = j := le_antisymm hij hge
    subst this
    exact le_refl _

theorem pairwise_lt_getD {l : List ℚ} (h : l.Pairwise (· < ·)) {i j : Nat}
    (hij : i < j) (hj : j < l.length) : l.getD i 0 < l.getD j 0 :=
  pairwise_getD h hij hj

theorem headD_eq_getD (l : List ℚ) : l.headD 0 = l.getD 0 0 := by
  cases l <;> rfl

theorem getLastD_eq_getD :
    ∀ l : List ℚ, l ≠ [] → l.getLastD 0 = l.getD (l.length - 1) 0 := by
  intro l
  induction l with
  | nil => intro h; exact absurd rfl h
  | cons a t ih =>
    intro _
    cases t with
    | nil => rfl
    | cons b u =>
      have h2 : (b :: u) ≠ [] := by simp
      have : (a :: b :: u).getLastD 0 = (b :: u).getLastD 0 := by
        simp [List.getLastD]
      rw [this, ih h2]
      simp

theorem takeWhile_length_le {α : Type} (p : α → Bool) :
    ∀ l : List α, (l.takeWhile p).length ≤ l.length
  | [] => le_refl _
  | a :: t => by
    simp only [List.takeWhile]
    cases p a with
    | true => simpa using takeWhile_length_le p t
    | false => simp

theorem takeWhile_getD_true {α : Type} (p : α → Bool) (d : α) :
    ∀ (l : List α) {i : Nat}, i < (l.takeWhile p).length →
      p (l.getD i d) = true := by
  intro l
  induction l with
  | nil => intro i h; simp [List.takeWhile] at h
  | cons a t ih =>
    intro i h
    cases hpa : p a with
    | false => rw [List.takeWhile_cons_of_neg (by simp [hpa])] at h; simp at h
    | true =>
      rw [List.takeWhile_cons_of_pos (by simp [hpa])] at h
      simp only [List.length_cons] at h
      cases i with
      | zero => simpa using hpa
      | succ k =>
        have : k < (t.takeWhile p).length := by omega
        simpa using ih this

theorem takeWhile_getD_false {α : Type} (p : α → Bool) (d : α) :
    ∀ l : List α, (l.takeWhile p).length < l.length →
      p (l.getD (l.takeWhile p).length d) = false := by
  intro l
  induction l with
  | nil => intro h; simp at h
  | cons a t ih =>
    intro h
    cases hpa : p a with
    | false =>
      rw [List.takeWhile_cons_of_neg (by simp [hpa])] at h ⊢
      simpa using hpa
    | true =>
      rw [List.takeWhile_cons_of_pos (by simp [hpa])] at h ⊢
      simp only [List.length_cons] at h ⊢
      have ht : (t.takeWhile p).length < t.length := by omega
      simpa using ih ht

theorem takeWhile_length_det {α : Type} (p : α → Bool) (d : α) :
    ∀ (l : List α) (n : Nat), n ≤ l.length →
      (∀ i, i < n → p (l.getD i d) = true) →
      (n < l.length → p (l.getD n d) = false) →
      (l.takeWhile p).length = n := by
  intro l
  induction l with
  | nil => intro n hn _ _; simp at hn ⊢; omega
  | cons a t ih =>
    intro n hn h1 h2
    cases n with
    | zero =>
      have hlt : 0 < (a :: t).length := by simp
      have : p a = false := by simpa using h2 hlt
      simp [List.takeWhile_cons_of_neg (by simp [this] : ¬ p a = true)]
    | succ m =>
      have hpa : p a = true := by simpa using h1 0 (Nat.succ_pos m)
      rw [List.takeWhile_cons_of_pos (by simp [hpa])]
      simp only [List.length_cons]
      have hm : m ≤ t.length := by simpa using hn
      have h1' : ∀ i, i < m → p (t.getD i d) = true := by
        intro i hi
        simpa using h1 (i + 1) (by omega)
      have h2' : m < t.length → p (t.getD m d) = false := by
        intro hmt
        simpa using h2 (by simpa using Nat.succ_lt_succ hmt)
      rw [ih m hm h1' h2']

theorem takeWhile_length_mono {α : Type} (p q : α → Bool)
    (himp : ∀ a, p a = true → q a = true) :
    ∀ l : List α, (l.takeWhile p).length ≤ (l.takeWhile q).length := by
  intro l
  induction l with
  | nil => simp
  | cons a t ih =>
    simp only [List.takeWhile]
    cases hpa : p a with
    | false => simp
    | true =>
      rw [himp a hpa]
      simpa using ih

/-! ## Structure of `np_interp_elem` -/

theorem drop_one_getD (xp : List ℚ) (i : Nat) :
    (xp.drop 1).getD i 0 = xp.getD (i + 1) 0 := by
  cases xp <;> simp

theorem searchIdx_le (x : ℚ) (xp : List ℚ) : searchIdx x xp ≤ xp.length - 1 := by
  have h := takeWhile_length_le (fun a => decide (a ≤ x)) (xp.drop 1)
  simpa [searchIdx] using h

theorem searchIdx_mono {x y : ℚ} (hxy : x ≤ y) (xp : List ℚ) :
    searchIdx x xp ≤ searchIdx y xp := by
  exact takeWhile_length_mono _ _
    (fun a ha => by
      simp only [decide_eq_true_eq] at ha ⊢
      exact le_trans ha hxy) _

theorem searchIdx_getD_le {xp : List ℚ} {x : ℚ} (hx : xp.headD 0 ≤ x) :
    xp.getD (searchIdx x xp) 0 ≤ x := by
  cases hj : searchIdx x xp with
  | zero => rw [← headD_eq_getD]; exact hx
  | succ k =>
    have hk : k < ((xp.drop 1).takeWhile (fun a => decide (a ≤ x))).length := by
      simp only [searchIdx] at hj
      omega
    have := takeWhile_getD_true (fun a => decide (a ≤ x)) 0 (xp.drop 1) hk
    rw [drop_one_getD] at this
    simpa using this

theorem searchIdx_getD_gt {xp : List ℚ} (x : ℚ)
    (h : searchIdx x xp + 1 < xp.length) :
    x < xp.getD (searchIdx x xp + 1) 0 := by
  have hlen : (xp.drop 1).length = xp.length - 1 := by simp
  have hlt : ((xp.drop 1).takeWhile (fun a => decide (a ≤ x))).length <
      (xp.drop 1).length := by
    simp only [searchIdx] at h
    omega
  have := takeWhile_getD_false (fun a => decide (a ≤ x)) 0 (xp.drop 1) hlt
  rw [drop_one_getD] at this
  simp only [searchIdx] at *
  simpa using this

theorem searchIdx_eq {xp : List ℚ} (hs : xp.Pairwise (· ≤ ·)) {x : ℚ} {j : Nat}
    (hj : j < xp.length) (h1 : xp.getD j 0 ≤ x)
    (h2 : j + 1 < xp.length → x < xp.getD (j + 1) 0) : searchIdx x xp = j := by
  have hlen : (xp.drop 1).length = xp.length - 1 := by simp
  have hjle : j ≤ (xp.drop 1).length := by omega
  have hall : ∀ i, i < j → (fun a => decide (a ≤ x)) ((xp.drop 1).getD i 0) = true := by
    intro i hi
    rw [drop_one_getD]
    have hle : xp.getD (i + 1) 0 ≤ xp.getD j 0 := pairwise_le_getD hs (by omega) hj
    simpa using le_trans hle h1
  have hstop : j < (xp.drop 1).length →
      (fun a => decide (a ≤ x)) ((xp.drop 1).getD j 0) = false := by
    intro hjt
    rw [drop_one_getD]
    have := h2 (by omega)
    simpa using not_le.mpr this
  simpa [searchIdx] using takeWhile_length_det _ 0 (xp.drop 1) j hjle hall hstop



theorem np_interp_elem_low {xp fp : List ℚ} (hs : xp.Pairwise (· ≤ ·))
    (hne : xp ≠ []) {x : ℚ} (hx : x < xp.headD 0) :
    np_interp_elem x xp fp = fp.headD 0 := by
  by_cases h1 : xp.length ≤ 1
  · simp only [np_interp_elem, if_pos h1]
    rw [headD_eq_getD]
  · have h2 : 2 ≤ xp.length := by omega
    have hhl : xp.headD 0 ≤ xp.getLastD 0 := by
      rw [headD_eq_getD, getLastD_eq_getD xp hne]
      exact pairwise_le_getD hs (by omega) (by omega)
    have hnotgt : ¬ (xp.getLastD 0 < x) := not_lt.mpr (le_trans (le_of_lt hx) hhl)
    simp only [np_interp_elem, if_neg h1, gt_iff_lt, if_neg hnotgt, if_pos hx]

theorem np_interp_elem_high {xp fp : List ℚ} (hne : xp ≠ [])
    (hflen : fp.length = xp.length) {x : ℚ} (hx : xp.getLastD 0 < x) :
    np_interp_elem x xp fp = fp.getLastD 0 := by
  by_cases h1 : xp.length ≤ 1
  · have hlen : 0 < xp.length := List.length_pos.mpr hne
    have hf1 : fp.length = 1 := by omega
    have hfne : fp ≠ [] := by
      intro h
      rw [h] at hf1
      simp at hf1
    simp only [np_interp_elem, if_pos h1]
    rw [getLastD_eq_getD fp hfne, hf1]
  · simp only [np_interp_elem, if_neg h1, gt_iff_lt, if_pos hx]

theorem np_interp_elem_last {xp fp : List ℚ} (hs : xp.Pairwise (· ≤ ·))
    (h2 : 2 ≤ xp.length) :
    np_interp_elem (xp.getLastD 0) xp fp = fp.getD (xp.length - 1) 0 := by
  have hne : xp ≠ [] := by
    intro h
    rw [h] at h2
    simp at h2
  have hlast : xp.getLastD 0 = xp.getD (xp.length - 1) 0 := getLastD_eq_getD xp hne
  have hhd : xp.headD 0 ≤ xp.getLastD 0 := by
    rw [headD_eq_getD, hlast]
    exact pairwise_le_getD hs (by omega) (by omega)
  have hj : searchIdx (xp.getLastD 0) xp = xp.length - 1 := by
    apply searchIdx_eq hs (by omega)
    · exact le_of_eq hlast.symm
    · intro hcontra
      omega
  simp only [np_interp_elem, if_neg (by omega : ¬ xp.length ≤ 1), gt_iff_lt,
    if_neg (lt_irrefl (xp.getLastD 0)), if_neg (not_lt.mpr hhd), hj]
  simp

theorem np_interp_elem_char {xp fp : List ℚ} (hxs : xp.Pairwise (· < ·))
    (h2 : 2 ≤ xp.length) {x : ℚ} (hlo : xp.headD 0 ≤ x)
    (hhi : x < xp.getLastD 0) :
    searchIdx x xp + 1 < xp.length ∧
    xp.getD (searchIdx x xp) 0 ≤ x ∧
    x < xp.getD (searchIdx x xp + 1) 0 ∧
    np_interp_elem x xp fp =
      fp.getD (searchIdx x xp) 0 +
        (fp.getD (searchIdx x xp + 1) 0 - fp.getD (searchIdx x xp) 0) /
          (xp.getD (searchIdx x xp + 1) 0 - xp.getD (searchIdx x xp) 0) *
          (x - xp.getD (searchIdx x xp) 0) := by
  have hne : xp ≠ [] := by
    intro h
    rw [h] at h2
    simp at h2
  have hlast : xp.getLastD 0 = xp.getD (xp.length - 1) 0 := getLastD_eq_getD xp hne
  have hjle : searchIdx x xp ≤ xp.length - 1 := searchIdx_le x xp
  have hle : xp.getD (searchIdx x xp) 0 ≤ x := searchIdx_getD_le hlo
  have hjne : searchIdx x xp ≠ xp.length - 1 := by
    intro he
    rw [he] at hle
    rw [hlast] at hhi
    exact absurd (lt_of_le_of_lt hle hhi) (lt_irrefl _)
  have hjlt : searchIdx x xp + 1 < xp.length := by omega
  have hgt : x < xp.getD (searchIdx x xp + 1) 0 := searchIdx_getD_gt x hjlt
  refine ⟨hjlt, hle, hgt, ?_⟩
  have hn1 : ¬ xp.length ≤ 1 := by omega
  have hn2 : ¬ (xp.getLastD 0 < x) := not_lt.mpr (le_of_lt hhi)
  have hn3 : ¬ (x < xp.headD 0) := not_lt.mpr hlo
  by_cases hxe : xp.getD (searchIdx x xp) 0 = x
  · simp only [np_interp_elem, if_neg hn1, gt_iff_lt, if_neg hn2, if_neg hn3,
      if_neg hjne, if_pos hxe]
    rw [hxe]
    ring
  · simp only [np_interp_elem, if_neg hn1, gt_iff_lt, if_neg hn2, if_neg hn3,
      if_neg hjne, if_neg hxe]

theorem lin_between {fj fj1 xj xj1 x : ℚ} (hx : xj < xj1) (hf : fj ≤ fj1)
    (h1 : xj ≤ x) (h2 : x ≤ xj1) :
    fj ≤ fj + (fj1 - fj) / (xj1 - xj) * (x - xj) ∧
      fj + (fj1 - fj) / (xj1 - xj) * (x - xj) ≤ fj1 := by
  have hB : (0:ℚ) < xj1 - xj := by linarith
  have hA : (0:ℚ) ≤ fj1 - fj := by linarith
  have hs : (0:ℚ) ≤ (fj1 - fj) / (xj1 - xj) := div_nonneg hA (le_of_lt hB)
  constructor
  · nlinarith [mul_nonneg hs (by linarith : (0:ℚ) ≤ x - xj)]
  · have h3 : (fj1 - fj) / (xj1 - xj) * (x - xj) ≤
        (fj1 - fj) / (xj1 - xj) * (xj1 - xj) :=
      mul_le_mul_of_nonneg_left (by linarith) hs
    rw [div_mul_cancel₀ _ (ne_of_gt hB)] at h3
    linarith

theorem np_interp_elem_mem {xp fp : List ℚ} (hxs : xp.Pairwise (· < ·))
    (hfs : fp.Pairwise (· ≤ ·)) (hflen : fp.length = xp.length)
    (hne : xp ≠ []) (x : ℚ) :
    fp.getD 0 0 ≤ np_interp_elem x xp fp ∧
      np_interp_elem x xp fp ≤ fp.getD (fp.length - 1) 0 := by
  have hxle : xp.Pairwise (· ≤ ·) := hxs.imp le_of_lt
  have hlen : 0 < xp.length := List.length_pos.mpr hne
  have hfne : fp ≠ [] := by
    intro h
    rw [h] at hflen
    simp at hflen
    omega
  by_cases h1 : xp.length ≤ 1
  · simp only [np_interp_elem, if_pos h1]
    exact ⟨le_refl _, pairwise_le_getD hfs (by omega) (by omega)⟩
  · have h2 : (2:ℕ) ≤ xp.length := by omega
    by_cases hhigh : xp.getLastD 0 < x
    · rw [np_interp_elem_high hne hflen hhigh, getLastD_eq_getD fp hfne]
      exact ⟨pairwise_le_getD hfs (by omega) (by omega), le_refl _⟩
    · by_cases hlow : x < xp.headD 0
      · rw [np_interp_elem_low hxle hne hlow, headD_eq_getD]
        exact ⟨le_refl _, pairwise_le_getD hfs (by omega) (by omega)⟩
      · push_neg at hhigh hlow
        by_cases hxlast : x = xp.getLastD 0
        · rw [hxlast, np_interp_elem_last hxle h2]
          constructor
          · exact pairwise_le_getD hfs (by omega) (by omega)
          · rw [hflen]
        · have hhi : x < xp.getLastD 0 := lt_of_le_of_ne hhigh hxlast
          obtain ⟨hjlt, hjle, hjgt, hval⟩ := np_interp_elem_char hxs h2 hlow hhi
          have hxj : xp.getD (searchIdx x xp) 0 < xp.getD (searchIdx x xp + 1) 0 :=
            pairwise_lt_getD hxs (by omega) hjlt
          have hfj : fp.getD (searchIdx x xp) 0 ≤ fp.getD (searchIdx x xp + 1) 0 :=
            pairwise_le_getD hfs (by omega) (by omega)
          obtain ⟨hb1, hb2⟩ := lin_between hxj hfj hjle (le_of_lt hjgt)
          rw [hval]
          constructor
          · exact le_trans (pairwise_le_getD hfs (by omega) (by omega)) hb1
          · exact le_trans hb2 (pairwise_le_getD hfs (by omega) (by omega))

theorem np_interp_elem_mono {xp fp : List ℚ} (hxs : xp.Pairwise (· < ·))
    (hfs : fp.Pairwise (· ≤ ·)) (hflen : fp.length = xp.length)
    (hne : xp ≠ []) {x y : ℚ} (hxy : x ≤ y) :
    np_interp_elem x xp fp ≤ np_interp_elem y xp fp := by
  have hxle : xp.Pairwise (· ≤ ·) := hxs.imp le_of_lt
  have hlen : 0 < xp.length := List.length_pos.mpr hne
  have hfne : fp ≠ [] := by
    intro h
    rw [h] at hflen
    simp at hflen
    omega
  by_cases h1 : xp.length ≤ 1
  · simp only [np_interp_elem, if_pos h1]
    exact le_refl _
  · have h2 : (2:ℕ) ≤ xp.length := by omega
    by_cases hyl : y < xp.headD 0
    · rw [np_interp_elem_low hxle hne hyl,
        np_interp_elem_low hxle hne (lt_of_le_of_lt hxy hyl)]
    · by_cases hxh : xp.getLastD 0 < x
      · rw [np_interp_elem_high hne hflen hxh,
          np_interp_elem_high hne hflen (lt_of_lt_of_le hxh hxy)]
      · push_neg at hyl hxh
        by_cases hxl : x < xp.headD 0
        · rw [np_interp_elem_low hxle hne hxl, headD_eq_getD]
          exact (np_interp_elem_mem hxs hfs hflen hne y).1
        · by_cases hyh : xp.getLastD 0 < y
          · rw [np_interp_elem_high hne hflen hyh, getLastD_eq_getD fp hfne]
            exact (np_interp_elem_mem hxs hfs hflen hne x).2
          · push_neg at hxl hyh
            by_cases hylast : y = xp.getLastD 0
            · rw [hylast, np_interp_elem_last hxle h2, ← hflen]
              exact (np_interp_elem_mem hxs hfs hflen hne x).2
            · have hyhi : y < xp.getLastD 0 := lt_of_le_of_ne hyh hylast
              have hxhi : x < xp.getLastD 0 := lt_of_le_of_lt hxy hyhi
              obtain ⟨hjltx, hjlex, hjgtx, hvalx⟩ :=
                np_interp_elem_char hxs h2 hxl hxhi
              obtain ⟨hjlty, hjley, hjgty, hvaly⟩ :=
                @np_interp_elem_char xp fp hxs h2 y (le_trans hxl hxy) hyhi
              have hjj : searchIdx x xp ≤ searchIdx y xp := searchIdx_mono hxy xp
              rcases eq_or_lt_of_le hjj with hje | hjlt2
              · rw [hvalx, hvaly, ← hje]
                have hB : (0:ℚ) < xp.getD (searchIdx x xp + 1) 0 -
                    xp.getD (searchIdx x xp) 0 := by
                  have := pairwise_lt_getD hxs
                    (Nat.lt_succ_self (searchIdx x xp)) hjltx
                  linarith
                have hA : (0:ℚ) ≤ fp.getD (searchIdx x xp + 1) 0 -
                    fp.getD (searchIdx x xp) 0 := by
                  have := pairwise_le_getD hfs
                    (Nat.le_succ (searchIdx x xp)) (by omega)
                  linarith
                have hs0 : (0:ℚ) ≤ (fp.getD (searchIdx x xp + 1) 0 -
                    fp.getD (searchIdx x xp) 0) /
                    (xp.getD (searchIdx x xp + 1) 0 - xp.getD (searchIdx x xp) 0) :=
                  div_nonneg hA (le_of_lt hB)
                have := mul_le_mul_of_nonneg_left
                  (sub_le_sub_right hxy (xp.getD (searchIdx x xp) 0)) hs0
                linarith
              · have hxj : xp.getD (searchIdx x xp) 0 <
                    xp.getD (searchIdx x xp + 1) 0 :=
                  pairwise_lt_getD hxs (Nat.lt_succ_self _) hjltx
                have hfj : fp.getD (searchIdx x xp) 0 ≤
                    fp.getD (searchIdx x xp + 1) 0 :=
                  pairwise_le_getD hfs (Nat.le_succ _) (by omega)
                have hb2 := (lin_between hxj hfj hjlex (le_of_lt hjgtx)).2
                have hyj : xp.getD (searchIdx y xp) 0 <
                    xp.getD (searchIdx y xp + 1) 0 :=
                  pairwise_lt_getD hxs (Nat.lt_succ_self _) hjlty
                have hfyj : fp.getD (searchIdx y xp) 0 ≤
                    fp.getD (searchIdx y xp + 1) 0 :=
                  pairwise_le_getD hfs (Nat.le_succ _) (by omega)
                have hb1 := (lin_between hyj hfyj hjley (le_of_lt hjgty)).1
                have hmid : fp.getD (searchIdx x xp + 1) 0 ≤
                    fp.getD (searchIdx y xp) 0 :=
                  pairwise_le_getD hfs (by omega) (by omega)
                rw [hvalx, hvaly]
                linarith

theorem np_interp_elem_roundtrip {xp fp : List ℚ} (hxs : xp.Pairwise (· < ·))
    (hfs : fp.Pairwise (· < ·)) (hflen : fp.length = xp.length)
    (h2 : 2 ≤ xp.length) {x : ℚ} (hlo : xp.headD 0 ≤ x)
    (hhi : x ≤ xp.getLastD 0) :
    np_interp_elem (np_interp_elem x xp fp) fp xp = x := by
  have hxle : xp.Pairwise (· ≤ ·) := hxs.imp le_of_lt
  have hfle : fp.Pairwise (· ≤ ·) := hfs.imp le_of_lt
  have hne : xp ≠ [] := by
    intro h
    rw [h] at h2
    simp at h2
  have hf2 : 2 ≤ fp.length := by omega
  have hfne : fp ≠ [] := by
    intro h
    rw [h] at hf2
    simp at hf2
  by_cases hxlast : x = xp.getLastD 0
  · rw [hxlast, np_interp_elem_last hxle h2]
    have hswap : fp.getD (xp.length - 1) 0 = fp.getLastD 0 := by
      rw [getLastD_eq_getD fp hfne, hflen]
    rw [hswap, np_interp_elem_last hfle hf2, getLastD_eq_getD xp hne, hflen]
  · have hxhi : x < xp.getLastD 0 := lt_of_le_of_ne hhi hxlast
    obtain ⟨hjlt, hjle, hjgt, hval⟩ := @np_interp_elem_char xp fp hxs h2 x hlo hxhi
    have hxj : xp.getD (searchIdx x xp) 0 < xp.getD (searchIdx x xp + 1) 0 :=
      pairwise_lt_getD hxs (Nat.lt_succ_self _) hjlt
    have hfj : fp.getD (searchIdx x xp) 0 < fp.getD (searchIdx x xp + 1) 0 :=
      pairwise_lt_getD hfs (Nat.lt_succ_self _) (by omega)
    have hyb1 : fp.getD (searchIdx x xp) 0 ≤ np_interp_elem x xp fp := by
      rw [hval]
      exact (lin_between hxj (le_of_lt hfj) hjle (le_of_lt hjgt)).1
    have hB : (0:ℚ) < xp.getD (searchIdx x xp + 1) 0 - xp.getD (searchIdx x xp) 0 := by
      linarith
    have hs0 : (0:ℚ) < (fp.getD (searchIdx x xp + 1) 0 - fp.getD (searchIdx x xp) 0) /
        (xp.getD (searchIdx x xp + 1) 0 - xp.getD (searchIdx x xp) 0) :=
      div_pos (by linarith) hB
    have hylt : np_interp_elem x xp fp < fp.getD (searchIdx x xp + 1) 0 := by
      have hmul := mul_lt_mul_of_pos_left
        (show x - xp.getD (searchIdx x xp) 0 <
          xp.getD (searchIdx x xp + 1) 0 - xp.getD (searchIdx x xp) 0 by linarith) hs0
      rw [div_mul_cancel₀ _ (ne_of_gt hB)] at hmul
      rw [hval]
      linarith
    have hfh : fp.headD 0 ≤ np_interp_elem x xp fp := by
      rw [headD_eq_getD]
      exact le_trans (pairwise_le_getD hfle (Nat.zero_le _) (by omega)) hyb1
    have hfl : np_interp_elem x xp fp < fp.getLastD 0 := by
      rw [getLastD_eq_getD fp hfne]
      exact lt_of_lt_of_le hylt (pairwise_le_getD hfle (by omega) (by omega))
    obtain ⟨hjlt2, hjle2, hjgt2, hval2⟩ :=
      @np_interp_elem_char fp xp hfs hf2 (np_interp_elem x xp fp) hfh hfl
    have hjj : searchIdx (np_interp_elem x xp fp) fp = searchIdx x xp := by
      apply searchIdx_eq hfle (by omega) hyb1
      intro _
      exact hylt
    rw [hjj] at hval2
    rw [hval2, hval]
    have hBne : xp.getD (searchIdx x xp) 0 < xp.getD (searchIdx x xp + 1) 0 := hxj
    have hFne : fp.getD (searchIdx x xp) 0 < fp.getD (searchIdx x xp + 1) 0 := hfj
    generalize xp.getD (searchIdx x xp) 0 = a at hBne
    generalize xp.getD (searchIdx x xp + 1) 0 = b at hBne
    generalize fp.getD (searchIdx x xp) 0 = c at hFne
    generalize fp.getD (searchIdx x xp + 1) 0 = e at hFne
    have h1 : b - a ≠ 0 := by intro h; linarith
    have h2 : e - c ≠ 0 := by intro h; linarith
    field_simp
    ring

theorem lookup_mem {α β : Type} [BEq α] [LawfulBEq α] {l : List (α × β)} {k : α}
    {v : β} (h : l.lookup k = some v) : (k, v) ∈ l := by
  induction l with
  | nil => simp [List.lookup] at h
  | cons a t ih =>
    rw [List.lookup_cons] at h
    by_cases he : k == a.1
    · simp only [he] at h
      cases h
      have : k = a.1 := eq_of_beq he
      rw [this]
      exact List.mem_cons_self _ _
    · simp only [Bool.not_eq_true] at he
      rw [he] at h
      exact List.mem_cons_of_mem _ (ih h)

theorem pairwise_fst_zip {α : Type} {R : ℚ → ℚ → Prop} :
    ∀ (xp : List ℚ) (fp : List α), xp.Pairwise R →
      (xp.zip fp).Pairwise (fun a b => R a.1 b.1)
  | [], _, _ => by simp
  | _ :: _, [], _ => by simp
  | a :: t, b :: u, h => by
    rw [List.pairwise_cons] at h
    simp only [List.zip_cons_cons]
    refine List.Pairwise.cons ?_ (pairwise_fst_zip t u h.2)
    intro x hx
    obtain ⟨x1, x2⟩ := x
    exact h.1 x1 (List.of_mem_zip hx).1

theorem empty_table_lookup {d : RatingDict} (h : rEmptyTable d = true)
    {k : String} {v : List ℚ} (hl : d.lookup k = some v) : v = [] := by
  have hmem := lookup_mem hl
  simp only [rEmptyTable, Bool.or_eq_true] at h
  rcases h with h | h
  · rw [List.isEmpty_iff] at h
    rw [h] at hmem
    exact absurd hmem (List.not_mem_nil _)
  · rw [List.all_eq_true] at h
    have := h _ hmem
    simpa [List.isEmpty_iff] using this

theorem rEmptyTable_false_of_mem {d : RatingDict} {k : String} {v : List ℚ}
    (hmem : (k, v) ∈ d) (hv : v ≠ []) : rEmptyTable d = false := by
  have h1 : d.isEmpty = false := by
    cases d with
    | nil => exact absurd hmem (List.not_mem_nil _)
    | cons a t => rfl
  have h2 : d.all (fun p => p.2.isEmpty) = false := by
    rw [List.all_eq_false]
    exact ⟨(k, v), hmem, by simpa [List.isEmpty_iff] using hv⟩
  simp [rEmptyTable, h1, h2]

/-- C7: for a rating curve with at least two (stage, flow) points, strictly
monotone in both coordinates (the spec's monotone rating-curve invariant),
and a stage value `s` inside the stage domain, `stage_to_flow` followed by
`flow_to_stage` over the same curve returns `s` — exactly, in the rational
model (the float tolerance of the claim is the roundoff of this identity). -/
theorem interp_roundtrip_exact (d : RatingDict) (xp fp : List ℚ)
    (hst : d.lookup "stage" = some xp) (hfl : d.lookup "flow" = some fp)
    (hlen : fp.length = xp.length) (h2 : 2 ≤ xp.length)
    (hxs : xp.Pairwise (· < ·)) (hfs : fp.Pairwise (· < ·))
    (s : ℚ) (hlo : xp.headD 0 ≤ s) (hhi : s ≤ xp.getLastD 0) :
    ∃ f : ℚ, interpolate_flow [s] d = Except.ok [some f] ∧
      interpolate_stage_cached [f] d = Except.ok [some s] := by
  have hxpne : xp ≠ [] := by
    intro h
    rw [h] at h2
    simp at h2
  have hre : rEmptyTable d = false :=
    rEmptyTable_false_of_mem (lookup_mem hst) hxpne
  refine ⟨np_interp_elem s xp fp, ?_, ?_⟩
  · simp only [interpolate_flow, hre, Bool.false_eq_true, if_false, hst, hfl,
      np_interp]
    rw [if_neg (by simpa [List.isEmpty_iff] using hxpne),
      if_neg (by omega : ¬ xp.length ≠ fp.length)]
    simp
  · have hzip : (fp.zip xp).Pairwise (fun a b => a.1 ≤ b.1) :=
      pairwise_fst_zip fp xp (hfs.imp le_of_lt)
    have hsorted : insSortK Prod.fst (fp.zip xp) = fp.zip xp :=
      insSortK_eq_self Prod.fst _ hzip
    have hfpne : fp ≠ [] := by
      intro h
      rw [h] at hlen
      simp at hlen
      omega
    simp only [interpolate_stage_cached, hfl, hre, Bool.false_eq_true, if_false,
      hst, hsorted]
    rw [List.map_fst_zip fp xp (le_of_eq hlen), List.map_snd_zip fp xp (le_of_eq hlen.symm)]
    simp only [np_interp]
    rw [if_neg (by simpa [List.isEmpty_iff] using hfpne),
      if_neg (by omega : ¬ fp.length ≠ xp.length)]
    simp only [List.map_cons, List.map_nil, Except.ok.injEq, List.cons.injEq,
      Option.some.injEq]
    exact ⟨np_interp_elem_roundtrip hxs hfs hlen h2 hlo hhi, trivial⟩

/-- C7 witness: the concrete curve stage [1, 2] / flow [100, 200] at
`s = 3/2` round-trips through both interpolation directions. -/
theorem interp_roundtrip_exact_witness :
    ∃ f : ℚ,
      interpolate_flow [3 / 2] [("stage", [1, 2]), ("flow", [100, 200])] =
        Except.ok [some f] ∧
      interpolate_stage_cached [f] [("stage", [1, 2]), ("flow", [100, 200])] =
        Except.ok [some (3 / 2)] :=
  interp_roundtrip_exact [("stage", [1, 2]), ("flow", [100, 200])]
    [1, 2] [100, 200] rfl rfl rfl (by norm_num)
    (by norm_num [List.pairwise_cons]) (by norm_num [List.pairwise_cons])
    (3 / 2) (by norm_num [List.headD]) (by norm_num [List.getLastD])

theorem np_interp_ok_length {xs xp fp : List ℚ} {ys : List ℚ}
    (h : np_interp xs xp fp = Except.ok ys) : ys.length = xs.length := by
  simp only [np_interp] at h
  split at h
  · simp at h
  · split at h
    · simp at h
    · simp only [Except.ok.injEq] at h
      rw [← h]
      simp

theorem interpolate_flow_ok_length {flow : List ℚ} {d : RatingDict}
    {res : List (Option ℚ)} (h : interpolate_flow flow d = Except.ok res) :
    res.length = flow.length := by
  rw [interpolate_flow] at h
  split at h
  · simp only [Except.ok.injEq] at h
    rw [← h]
    simp
  · split at h
    · rename_i xp fp _
      split at h
      · rename_i ys hys
        simp only [Except.ok.injEq] at h
        rw [← h]
        rw [List.length_map]
        exact np_interp_ok_length hys
      · simp at h
    · simp at h

theorem interpolate_stage_cached_ok_length {flow : List ℚ} {d : RatingDict}
    {res : List (Option ℚ)}
    (h : interpolate_stage_cached flow d = Except.ok res) :
    res.length = flow.length := by
  rw [interpolate_stage_cached] at h
  split at h
  · simp at h
  · rename_i fcol hfl
    split at h
    · simp only [Except.ok.injEq] at h
      rw [← h]
      simp
    · split at h
      · simp at h
      · rename_i scol hst
        have h2 : (match np_interp flow
            ((insSortK Prod.fst (fcol.zip scol)).map Prod.fst)
            ((insSortK Prod.fst (fcol.zip scol)).map Prod.snd) with
          | Except.ok ys => Except.ok (ys.map some)
          | Except.error e => Except.error e) = Except.ok res := h
        split at h2
        · rename_i ys hys
          simp only [Except.ok.injEq] at h2
          rw [← h2, List.length_map]
          exact np_interp_ok_length hys
        · simp at h2

/-- C5 counterexample: `interpolate_flow` does *not* sort the rating curve by
the independent variable before use.  On the reversed curve stage [2, 1] /
flow [200, 100] at input stage 3/2, the code returns 100 (numpy's
`x > xp[-1]` boundary shortcut fires on the unsorted array), while
piecewise-linear interpolation over the same breakpoints sorted by stage —
what the claim asserts for every rating curve — returns 150. -/
theorem stage_to_flow_unsorted_cex :
    interpolate_flow [3 / 2] [("stage", [2, 1]), ("flow", [200, 100])] =
      Except.ok [some 100] ∧
    interpolate_flow_sortedSpec [3 / 2] [("stage", [2, 1]), ("flow", [200, 100])] =
      Except.ok [some 150] ∧
    (100 : ℚ) ≠ 150 := by
  have hst : (([("stage", [2, 1]), ("flow", [200, 100])] : RatingDict).lookup
      "stage") = some [2, 1] := rfl
  have hfl : (([("stage", [2, 1]), ("flow", [200, 100])] : RatingDict).lookup
      "flow") = some [200, 100] := rfl
  have hre : rEmptyTable [("stage", [2, 1]), ("flow", [200, 100])] = false := rfl
  refine ⟨?_, ?_, by norm_num⟩
  · simp only [interpolate_flow, hre, Bool.false_eq_true, if_false, hst, hfl]
    norm_num [np_interp, np_interp_elem, searchIdx, List.takeWhile,
      List.getLastD, List.headD]
  · simp only [interpolate_flow_sortedSpec, hre, Bool.false_eq_true, if_false,
      hst, hfl]
    have hsort : insSortK Prod.fst (([2, 1] : List ℚ).zip ([200, 100] : List ℚ)) =
        [((1 : ℚ), (100 : ℚ)), (2, 200)] := by
      norm_num [insSortK, insertK]
    rw [hsort]
    norm_num [np_interp, np_interp_elem, searchIdx, List.takeWhile,
      List.getLastD, List.headD]

/-- C5 (amended): `flow_to_stage` sorts the curve by the independent variable
(flow) before use, but `stage_to_flow` uses the breakpoints in the order
given, so it performs sorted piecewise-linear interpolation exactly when the
curve is already sorted by stage (first conjunct: it then coincides with the
spec-described sorted variant); both directions preserve the input's length
one-to-one (second and third conjuncts); inputs outside a sorted curve's
domain clamp to the first/last breakpoint's dependent value (fourth
conjunct, about the shared `np.interp` kernel). -/
theorem interp_piecewise_linear_amended :
    (∀ (stage : List ℚ) (d : RatingDict) (xp fp : List ℚ),
       d.lookup "stage" = some xp → d.lookup "flow" = some fp →
       xp.length = fp.length → xp.Pairwise (· ≤ ·) →
       interpolate_flow stage d = interpolate_flow_sortedSpec stage d) ∧
    (∀ (stage : List ℚ) (d : RatingDict) (res : List (Option ℚ)),
       interpolate_flow stage d = Except.ok res → res.length = stage.length) ∧
    (∀ (flow : List ℚ) (d : RatingDict) (res : List (Option ℚ)),
       interpolate_stage_cached flow d = Except.ok res →
       res.length = flow.length) ∧
    (∀ (x : ℚ) (xp fp : List ℚ), xp.Pairwise (· ≤ ·) → xp ≠ [] →
       fp.length = xp.length →
       (x < xp.headD 0 → np_interp_elem x xp fp = fp.headD 0) ∧
       (xp.getLastD 0 < x → np_interp_elem x xp fp = fp.getLastD 0)) := by
  refine ⟨?_, ?_, ?_, ?_⟩
  · intro stage d xp fp hst hfl hlen hs
    rw [interpolate_flow, interpolate_flow_sortedSpec]
    by_cases hre : rEmptyTable d
    · rw [if_pos hre, if_pos hre]
    · rw [if_neg hre, if_neg hre, hst, hfl]
      have hzip : (xp.zip fp).Pairwise (fun a b => a.1 ≤ b.1) :=
        pairwise_fst_zip xp fp hs
      simp only [insSortK_eq_self Prod.fst _ hzip,
        List.map_fst_zip xp fp (le_of_eq hlen),
        List.map_snd_zip xp fp (le_of_eq hlen.symm)]
  · intro stage d res h
    exact interpolate_flow_ok_length h
  · intro flow d res h
    exact interpolate_stage_cached_ok_length h
  · intro x xp fp hs hne hflen
    constructor
    · intro hx
      exact np_interp_elem_low hs hne hx
    · intro hx
      exact np_interp_elem_high hne hflen hx

/-- C5 witness: on the sorted two-point curve, `interpolate_flow` agrees with
the sorted-spec variant, and the clamping below the minimum breakpoint
returns the first dependent value. -/
theorem interp_piecewise_linear_amended_witness :
    interpolate_flow [5] [("stage", [1, 2]), ("flow", [100, 200])] =
      interpolate_flow_sortedSpec [5] [("stage", [1, 2]), ("flow", [100, 200])] ∧
    np_interp_elem 0 [1, 2] [100, 200] = 100 := by
  obtain ⟨h1, _, _, h4⟩ := interp_piecewise_linear_amended
  constructor
  · exact h1 [5] [("stage", [1, 2]), ("flow", [100, 200])] [1, 2] [100, 200]
      rfl rfl rfl (by norm_num [List.pairwise_cons])
  · have hcl := (h4 0 [1, 2] [100, 200] (by norm_num [List.pairwise_cons])
      (by simp) rfl).1 (by norm_num [List.headD])
    rw [hcl]
    norm_num [List.headD]

/-- C3 counterexample: the percentile stage-projection does *not* follow the
missing-curve policy — on a non-empty ensemble with an empty rating curve,
`compute_and_interpolate_percentiles` raises (`np.interp` is called with an
empty sample-point array and no guard catches it) instead of returning
all-missing series. -/
theorem missing_curve_raises_cex :
    compute_and_interpolate_percentiles
      ⟨["m1"], [(0, [some 1])]⟩ [("stage", []), ("flow", [])] =
      Except.error PyErr.valueError := rfl

/-- C3 (amended): with an empty rating table, `interpolate_flow` returns an
all-missing series of the input's length and does not raise; so does
`interpolate_stage_cached`, *provided* the empty dict still carries its
`flow` column (a columnless dict raises `KeyError` from
`sort_values("flow")` before the emptiness guard); but
`compute_and_interpolate_percentiles` on any non-empty ensemble raises for
every empty rating table. -/
theorem missing_curve_policy (stage flow : List ℚ) (d : RatingDict)
    (h : rEmptyTable d = true) :
    interpolate_flow stage d = Except.ok (stage.map (fun _ => none)) ∧
    (∀ fcol, d.lookup "flow" = some fcol →
      interpolate_stage_cached flow d = Except.ok (flow.map (fun _ => none))) ∧
    (∀ e : Ensemble, ensEmpty e = false →
      ∃ err, compute_and_interpolate_percentiles e d = Except.error err) := by
  refine ⟨?_, ?_, ?_⟩
  · rw [interpolate_flow, if_pos h]
  · intro fcol hf
    simp [interpolate_stage_cached, hf, h]
  · intro e he
    rw [compute_and_interpolate_percentiles, he]
    simp only [Bool.false_eq_true, if_false]
    cases hlf : d.lookup "flow" with
    | none =>
      cases hls : d.lookup "stage" with
      | none => exact ⟨PyErr.keyError, rfl⟩
      | some st => exact ⟨PyErr.keyError, rfl⟩
    | some fl =>
      have hfl0 : fl = [] := empty_table_lookup h hlf
      cases hls : d.lookup "stage" with
      | none => exact ⟨PyErr.keyError, rfl⟩
      | some st =>
        refine ⟨PyErr.valueError, ?_⟩
        rw [hfl0]
        simp

/-- C3 witness: the empty-but-columned rating table on concrete inputs. -/
theorem missing_curve_policy_witness :
    interpolate_flow [7] [("stage", []), ("flow", [])] = Except.ok [none] ∧
    interpolate_stage_cached [8] [("stage", []), ("flow", [])] =
      Except.ok [none] ∧
    ∃ err, compute_and_interpolate_percentiles ⟨["m"], [(0, [some 2])]⟩
      [("stage", []), ("flow", [])] = Except.error err := by
  obtain ⟨h1, h2, h3⟩ :=
    missing_curve_policy [7] [8] [("stage", []), ("flow", [])] rfl
  exact ⟨h1, h2 [] rfl, h3 ⟨["m"], [(0, [some 2])]⟩ rfl⟩

/-- C9: a member column with zero valid (non-missing) samples inside the
window gets the exceedance flag `False` for every threshold — it
contributes 0 to the exceedance count — and the exceedance computation
depends only on the rows inside the window, so such a member's values
outside the window are irrelevant. -/
theorem member_no_valid_in_window (e : Ensemble) (d : RatingDict)
    (fl : List (String × ℚ × String)) (ps pe : ℤ) (j : Nat)
    (hj : j < e.cols.length)
    (hnone : ∀ r ∈ windowRows e ps pe, r.2.getD j none = none) :
    (∀ th : ℚ, (exceedFlags e d th ps pe).get? j = some false) ∧
    (∀ e2 : Ensemble, e2.cols.length = e.cols.length →
      windowRows e2 ps pe = windowRows e ps pe →
      compute_exceedance_probabilities e2 d fl ps pe =
        compute_exceedance_probabilities e d fl ps pe) := by
  constructor
  · intro th
    rw [exceedFlags, List.get?_map, List.get?_range hj]
    have hvalid : (colSeries (windowRows e ps pe) j).filterMap id = [] := by
      rw [List.filterMap_eq_nil]
      intro a ha
      rw [colSeries] at ha
      rw [List.mem_map] at ha
      obtain ⟨r, hr, rfl⟩ := ha
      exact hnone r hr
    rw [Option.map]
    rw [memberExceeds, hvalid]
    rfl
  · intro e2 hc hw
    rw [compute_exceedance_probabilities, compute_exceedance_probabilities]
    apply List.map_congr_left
    intro l _
    rw [exceedFlags, exceedFlags, hc, hw]

/-- C9 witness: a two-member ensemble where member 0 is all-missing inside
the window [0, 5] but has a large value at the out-of-window timestamp 10:
its flag is `False`, and blanking its out-of-window values does not change
the exceedance output. -/
theorem member_no_valid_in_window_witness :
    (exceedFlags ⟨["a", "b"], [(0, [none, some 5]), (10, [some 100, some 1])]⟩
        [("stage", [1, 2]), ("flow", [100, 200])] (3 / 2) 0 5).get? 0 =
      some false ∧
    compute_exceedance_probabilities
        ⟨["a", "b"], [(0, [none, some 5]), (10, [none, none])]⟩
        [("stage", [1, 2]), ("flow", [100, 200])] [("minor", 3 / 2, "red")] 0 5 =
      compute_exceedance_probabilities
        ⟨["a", "b"], [(0, [none, some 5]), (10, [some 100, some 1])]⟩
        [("stage", [1, 2]), ("flow", [100, 200])] [("minor", 3 / 2, "red")] 0 5 := by
  have hwr : windowRows
      ⟨["a", "b"], [(0, [none, some 5]), (10, [some 100, some 1])]⟩ 0 5 =
      [((0 : ℤ), [none, some 5])] := by
    norm_num [windowRows]
  have hwr2 : windowRows
      ⟨["a", "b"], [(0, [none, some 5]), (10, [none, none])]⟩ 0 5 =
      [((0 : ℤ), [none, some 5])] := by
    norm_num [windowRows]
  obtain ⟨h1, h2⟩ := member_no_valid_in_window
    ⟨["a", "b"], [(0, [none, some 5]), (10, [some 100, some 1])]⟩
    [("stage", [1, 2]), ("flow", [100, 200])] [("minor", 3 / 2, "red")] 0 5 0
    (by simp)
    (by
      intro r hr
      rw [hwr] at hr
      rw [List.mem_singleton] at hr
      rw [hr]
      rfl)
  exact ⟨h1 (3 / 2), h2 _ rfl (by rw [hwr, hwr2])⟩

/-- C2 counterexample: on the fully-empty ensemble (no columns, no rows) the
percentile engine short-circuits to the *empty dict* — even the key `p05`
is absent, not an empty series — and the exceedance engine reports the
undefined mean `NaN` (`none`) for a supplied threshold, which is neither a
zero-length mapping nor an all-zero probability. -/
theorem empty_ensemble_shape_cex :
    compute_and_interpolate_percentiles ⟨[], []⟩
      [("stage", [1]), ("flow", [10])] = Except.ok [] ∧
    ([] : List (String × Series)).lookup "p05" = none ∧
    compute_exceedance_probabilities ⟨[], []⟩ [("stage", [1]), ("flow", [10])]
      [("minor", 5, "orange")] 0 10 = [("minor", none)] ∧
    (none : Option ℚ) ≠ some 0 := by
  refine ⟨rfl, rfl, rfl, by simp⟩

/-- C2 (amended): neither engine raises on an empty ensemble, but the shapes
are: the percentile engine returns the empty mapping {} (all seven keys
omitted), and the exceedance engine returns per supplied threshold the
undefined mean `NaN` when the ensemble has no member columns, and an exact
0.0 when it has columns but no rows. -/
theorem empty_ensemble_shapes (e : Ensemble) (d : RatingDict)
    (fl : List (String × ℚ × String)) (ps pe : ℤ) (h : ensEmpty e = true) :
    compute_and_interpolate_percentiles e d = Except.ok [] ∧
    compute_exceedance_probabilities e d fl ps pe =
      fl.map (fun l => (l.1, if e.cols.isEmpty then none else some 0)) := by
  constructor
  · rw [compute_and_interpolate_percentiles, h, if_pos rfl]
  · rw [compute_exceedance_probabilities]
    apply List.map_congr_left
    intro l _
    have hflag : pctOfFlags (exceedFlags e d l.2.1 ps pe) =
        if e.cols.isEmpty then none else some 0 := by
      cases hcols : e.cols with
      | nil =>
        rw [exceedFlags, hcols]
        rfl
      | cons c cs =>
        have hrows : e.rows = [] := by
          rw [ensEmpty, Bool.or_eq_true] at h
          rcases h with h | h
          · exact List.isEmpty_iff.mp h
          · rw [hcols] at h
            simp at h
        have hflags : exceedFlags e d l.2.1 ps pe =
            List.replicate e.cols.length false := by
          rw [exceedFlags]
          have hwr : windowRows e ps pe = [] := by
            rw [windowRows, hrows]
            rfl
          have hfalse : ∀ j, memberExceeds d l.2.1 (colSeries (windowRows e ps pe) j) =
              false := by
            intro j
            rw [hwr]
            rfl
          calc (List.range e.cols.length).map
                (fun j => memberExceeds d l.2.1 (colSeries (windowRows e ps pe) j))
              = (List.range e.cols.length).map (fun _ => false) := by
                apply List.map_congr_left
                intro j _
                exact hfalse j
            _ = List.replicate (List.range e.cols.length).length false :=
                List.map_const _ _
            _ = List.replicate e.cols.length false := by rw [List.length_range]
        rw [hflags, pctOfFlags]
        have hne : (List.replicate e.cols.length false).isEmpty = false := by
          rw [hcols]
          rfl
        rw [hne]
        rw [List.count_replicate]
        simp
    rw [hflag]

/-- C2 witness: a columns-but-no-rows ensemble gives an exact 0 probability
and the empty percentile mapping. -/
theorem empty_ensemble_shapes_witness :
    compute_and_interpolate_percentiles ⟨["m1"], []⟩
      [("stage", [1]), ("flow", [10])] = Except.ok [] ∧
    compute_exceedance_probabilities ⟨["m1"], []⟩ [("stage", [1]), ("flow", [10])]
      [("minor", 5, "orange")] 0 10 =
      [("minor", some 0)] := by
  obtain ⟨h1, h2⟩ := empty_ensemble_shapes ⟨["m1"], []⟩
    [("stage", [1]), ("flow", [10])] [("minor", 5, "orange")] 0 10 rfl
  exact ⟨h1, h2⟩

theorem parse_timeseries_rows_eq (data : List RawRecord)
    (cmap : List (String × String)) (vt : String)
    (hd : data.isEmpty = false) (hvt : vtRawName data cmap = some vt) :
    (parse_timeseries data cmap).rows =
      ((insSortK PRow.time
        (((enumFromIdx 0 data).filter
          (fun p => !(cellD p.2 vt == Val.sentinel))).filterMap
          (fun p => (toDatetime (cellD p.2 vt)).map
            (mkRow (otherPairs data cmap) p.1 p.2)))).map
        (fun r => { r with cells := r.cells.map replaceNoData })).filter
        (fun r => r.cells.all (fun v => !(v == Val.na))) := by
  rw [parse_timeseries, if_neg (by simp [hd])]
  simp only [hvt]

/-- C4 (amended): the normalized time index of `parse_timeseries` is sorted
non-decreasing — but it is not deduplicated, so it need not be strictly
increasing (see the counterexample). -/
theorem parse_timeseries_sorted (data : List RawRecord)
    (cmap : List (String × String)) :
    ((parse_timeseries data cmap).rows.map PRow.time).Pairwise (· ≤ ·) := by
  by_cases hd : data.isEmpty
  · rw [parse_timeseries, if_pos hd]
    exact List.Pairwise.nil
  · cases hvt : vtRawName data cmap with
    | none =>
      rw [parse_timeseries, if_neg hd]
      simp only [hvt]
      exact List.Pairwise.nil
    | some vt =>
      rw [parse_timeseries_rows_eq data cmap vt (by simpa using hd) hvt]
      rw [List.pairwise_map]
      apply List.Pairwise.filter
      rw [List.pairwise_map]
      have hsorted := insSortK_sorted PRow.time
        ((((enumFromIdx 0 data).filter
          (fun p => !(cellD p.2 vt == Val.sentinel))).filterMap
          (fun p => (toDatetime (cellD p.2 vt)).map
            (mkRow (otherPairs data cmap) p.1 p.2))))
      exact hsorted.imp (fun h => h)

/-- C4 counterexample: two valid records carrying the identical timestamp
both survive cleaning — `sort_index` sorts but never deduplicates — so the
normalized index is not unique / strictly increasing. -/
theorem duplicate_timestamps_cex :
    ((parse_timeseries
        [[("validTime", Val.time 5), ("stage_ft", Val.num 1)],
         [("validTime", Val.time 5), ("stage_ft", Val.num 2)]] []).rows.map
      PRow.time) = [5, 5] ∧
    ¬ ([5, 5] : List ℤ).Pairwise (· < ·) := by
  constructor
  · simp [parse_timeseries, vtRawName, colPairs, rawColumns, addKey,
      applyMap, otherPairs, cellD, toDatetime, mkRow, insSortK, insertK,
      enumFromIdx, replaceNoData, List.lookup, List.filter, List.filterMap]
    norm_num
    rfl
  · norm_num [List.pairwise_cons]

/-- C8: a record whose raw time value is the literal invalid-time sentinel
never contributes a row to the normalized output: every output row's
originating record (recovered by its original position) has a non-sentinel
value in the raw column that is renamed to `validTime` — the sentinel rows
are filtered out before timestamp parsing. -/
theorem sentinel_rows_never_contribute (data : List RawRecord)
    (cmap : List (String × String)) :
    ∀ r ∈ (parse_timeseries data cmap).rows, ∀ rec : RawRecord,
      data.get? r.origIdx = some rec →
      ∃ c, vtRawName data cmap = some c ∧ cellD rec c ≠ Val.sentinel := by
  intro r hr rec hrec
  by_cases hd : data.isEmpty
  · rw [parse_timeseries, if_pos hd] at hr
    exact absurd hr (List.not_mem_nil r)
  · cases hvt : vtRawName data cmap with
    | none =>
      rw [parse_timeseries, if_neg hd] at hr
      simp only [hvt] at hr
      exact absurd hr (List.not_mem_nil r)
    | some vt =>
      refine ⟨vt, rfl, ?_⟩
      rw [parse_timeseries_rows_eq data cmap vt (by simpa using hd) hvt] at hr
      rw [List.mem_filter] at hr
      obtain ⟨hr1, _⟩ := hr
      rw [List.mem_map] at hr1
      obtain ⟨q, hq, hrq⟩ := hr1
      rw [mem_insSortK] at hq
      rw [List.mem_filterMap] at hq
      obtain ⟨p, hp, hmk⟩ := hq
      rw [List.mem_filter] at hp
      obtain ⟨hp1, hp2⟩ := hp
      cases ht : toDatetime (cellD p.2 vt) with
      | none =>
        rw [ht] at hmk
        simp at hmk
      | some t =>
        rw [ht] at hmk
        simp only [Option.map_some'] at hmk
        have hq1 : q = mkRow (otherPairs data cmap) p.1 p.2 t :=
          (Option.some.inj hmk).symm
        have hidx : r.origIdx = p.1 := by
          rw [← hrq, hq1]
          rfl
        obtain ⟨_, hget⟩ := mem_enumFromIdx hp1
        rw [hidx] at hrec
        have hget0 : data.get? p.1 = some p.2 := by
          simpa using hget
        rw [hget0] at hrec
        have hrec2 : rec = p.2 := (Option.some.inj hrec).symm
        rw [hrec2]
        intro hcontra
        rw [hcontra] at hp2
        simp at hp2

/-- C8 witness: a concrete two-record batch whose first record carries the
sentinel; the single surviving row originates from the second record, whose
raw time value is not the sentinel. -/
theorem sentinel_rows_never_contribute_witness :
    ∃ c, vtRawName
        [[("validTime", Val.sentinel), ("stage_ft", Val.num 9)],
         [("validTime", Val.time 3), ("stage_ft", Val.num 1)]] [] = some c ∧
      cellD [("validTime", Val.time 3), ("stage_ft", Val.num 1)] c ≠
        Val.sentinel := by
  have hrows : (parse_timeseries
      [[("validTime", Val.sentinel), ("stage_ft", Val.num 9)],
       [("validTime", Val.time 3), ("stage_ft", Val.num 1)]] []).rows =
      [⟨1, 3, [Val.num 1]⟩] := by
    simp [parse_timeseries, vtRawName, colPairs, rawColumns, addKey,
      applyMap, otherPairs, cellD, toDatetime, mkRow, insSortK, insertK,
      enumFromIdx, replaceNoData, List.lookup, List.filter, List.filterMap]
    norm_num
    rfl
  exact sentinel_rows_never_contribute
    [[("validTime", Val.sentinel), ("stage_ft", Val.num 9)],
     [("validTime", Val.time 3), ("stage_ft", Val.num 1)]] []
    ⟨1, 3, [Val.num 1]⟩ (by rw [hrows]; exact List.mem_singleton.mpr rfl)
    [("validTime", Val.time 3), ("stage_ft", Val.num 1)] rfl

theorem mapM_option_length {α β : Type} (f : α → Option β) :
    ∀ (l : List α) (l' : List β), l.mapM f = some l' → l'.length = l.length := by
  intro l
  induction l with
  | nil =>
    intro l' h
    simp only [List.mapM_nil] at h
    cases h
    rfl
  | cons a t ih =>
    intro l' h
    rw [List.mapM_cons] at h
    cases hfa : f a with
    | none => rw [hfa] at h; simp at h
    | some b =>
      rw [hfa] at h
      cases hmt : t.mapM f with
      | none => rw [hmt] at h; simp at h
      | some tb =>
        rw [hmt] at h
        simp only [Option.pure_def, Option.bind_eq_bind, Option.some_bind] at h
        cases h
        simp [ih tb hmt]

theorem zip_modify_times (rows : List PRow) (vals : List Val)
    (g : PRow × Val → List Val) (hlen : vals.length = rows.length) :
    ((rows.zip vals).map
      (fun p => PRow.mk p.1.origIdx p.1.time (g p))).map PRow.time =
      rows.map PRow.time := by
  have h1 : ((rows.zip vals).map
      (fun p => PRow.mk p.1.origIdx p.1.time (g p))).map PRow.time =
      (rows.zip vals).map (fun p => p.1.time) := by
    rw [List.map_map]
    rfl
  rw [h1]
  have h2 : (rows.zip vals).map (fun p => p.1.time) =
      ((rows.zip vals).map Prod.fst).map PRow.time := by
    rw [List.map_map]
    rfl
  rw [h2, List.map_fst_zip rows vals (le_of_eq hlen.symm)]

/-- C10: when the raw data is non-empty, its normalization is non-empty and
the rating-curve dictionary yields an empty table, `preprocess_stageflow`
returns the normalized frame exactly as `parse_timeseries` produced it — no
column is added and nothing is modified. -/
theorem preprocess_empty_curve_frame (raw : List RawRecord)
    (cmap : List (String × String)) (d : RatingDict)
    (h1 : raw ≠ []) (h2 : pfEmpty (parse_timeseries raw cmap) = false)
    (h3 : rEmptyTable d = true) :
    preprocess_stageflow raw cmap d = Except.ok (parse_timeseries raw cmap) := by
  simp only [preprocess_stageflow]
  rw [if_neg (by simpa using h1), if_neg (by simp [h2]), if_pos h3]

/-- C10 witness: a one-record observed series with an empty (but columned)
rating table passes through `preprocess_stageflow` untouched. -/
theorem preprocess_empty_curve_frame_witness :
    preprocess_stageflow [[("validTime", Val.time 0), ("stage_ft", Val.num 1)]]
      [] [("stage", []), ("flow", [])] =
      Except.ok (parse_timeseries
        [[("validTime", Val.time 0), ("stage_ft", Val.num 1)]] []) := by
  have hparse : parse_timeseries
      [[("validTime", Val.time 0), ("stage_ft", Val.num 1)]] [] =
      ⟨["stage_ft"], [⟨0, 0, [Val.num 1]⟩]⟩ := by
    simp [parse_timeseries, vtRawName, colPairs, rawColumns, addKey,
      applyMap, otherPairs, cellD, toDatetime, mkRow, insSortK, insertK,
      enumFromIdx, replaceNoData, List.lookup, List.filter, List.filterMap]
    norm_num
    rfl
  exact preprocess_empty_curve_frame
    [[("validTime", Val.time 0), ("stage_ft", Val.num 1)]] []
    [("stage", []), ("flow", [])] (by simp) (by rw [hparse]; rfl) rfl

/-- C1 (amended): whenever the normalized series contains a `stage_ft`
column (and the rating table is non-empty), `preprocess_stageflow` always
recomputes `flow_kcfs` by interpolating from stage — overwriting any raw
flow values — and returns the parsed frame with only that column written:
in particular the time index is unchanged. -/
theorem preprocess_derives_flow_amended (raw : List RawRecord)
    (cmap : List (String × String)) (d : RatingDict)
    (hr : raw ≠ []) (hpe : pfEmpty (parse_timeseries raw cmap) = false)
    (hd : rEmptyTable d = false)
    (hs : (parse_timeseries raw cmap).columns.contains "stage_ft" = true)
    (sv : List ℚ)
    (hsv : getNumCol (parse_timeseries raw cmap) "stage_ft" = some sv)
    (hsvr : sv.length = (parse_timeseries raw cmap).rows.length)
    (fv : List (Option ℚ)) (hfv : interpolate_flow sv d = Except.ok fv) :
    preprocess_stageflow raw cmap d =
      Except.ok (setCol (parse_timeseries raw cmap) "flow_kcfs"
        (fv.map ovVal)) ∧
    (setCol (parse_timeseries raw cmap) "flow_kcfs" (fv.map ovVal)).rows.map
      PRow.time = (parse_timeseries raw cmap).rows.map PRow.time := by
  have hfvlen : (fv.map ovVal).length =
      (parse_timeseries raw cmap).rows.length := by
    rw [List.length_map, interpolate_flow_ok_length hfv, hsvr]
  constructor
  · simp only [preprocess_stageflow]
    rw [if_neg (by simpa using hr), if_neg (by simp [hpe]),
      if_neg (by simp [hd]), if_pos hs]
    simp only [hsv, hfv]
  · rw [setCol]
    by_cases hc : "flow_kcfs" ∈ (parse_timeseries raw cmap).columns
    · rw [if_pos hc]
      exact zip_modify_times _ _ _ hfvlen
    · rw [if_neg hc]
      exact zip_modify_times _ _ _ hfvlen

/-- C1 counterexample: a record carrying *both* `stage_ft = 3/2` and
`flow_kcfs = 7` over the curve stage [1, 2] / flow [100, 200]:
`preprocess_stageflow` overwrites the raw flow 7 with the interpolated 150,
because the code only checks for the presence of `stage_ft` and never
whether `flow_kcfs` already exists. -/
theorem preprocess_overwrites_flow_cex :
    preprocess_stageflow
      [[("validTime", Val.time 0), ("stage_ft", Val.num (3 / 2)),
        ("flow_kcfs", Val.num 7)]] []
      [("stage", [1, 2]), ("flow", [100, 200])] =
      Except.ok ⟨["stage_ft", "flow_kcfs"],
        [⟨0, 0, [Val.num (3 / 2), Val.num 150]⟩]⟩ ∧
    Val.num 150 ≠ Val.num 7 := by
  have hparse : parse_timeseries
      [[("validTime", Val.time 0), ("stage_ft", Val.num (3 / 2)),
        ("flow_kcfs", Val.num 7)]] [] =
      ⟨["stage_ft", "flow_kcfs"], [⟨0, 0, [Val.num (3 / 2), Val.num 7]⟩]⟩ := by
    simp [parse_timeseries, vtRawName, colPairs, rawColumns, addKey,
      applyMap, otherPairs, cellD, toDatetime, mkRow, insSortK, insertK,
      enumFromIdx, replaceNoData, List.lookup, List.filter, List.filterMap]
    norm_num
    rfl
  have hst : (([("stage", [1, 2]), ("flow", [100, 200])] : RatingDict).lookup
      "stage") = some [1, 2] := rfl
  have hfl : (([("stage", [1, 2]), ("flow", [100, 200])] : RatingDict).lookup
      "flow") = some [100, 200] := rfl
  have hre : rEmptyTable [("stage", [1, 2]), ("flow", [100, 200])] = false := rfl
  have hflow : interpolate_flow [3 / 2] [("stage", [1, 2]), ("flow", [100, 200])] =
      Except.ok [some 150] := by
    simp only [interpolate_flow, hre, Bool.false_eq_true, if_false, hst, hfl]
    norm_num [np_interp, np_interp_elem, searchIdx, List.takeWhile,
      List.getLastD, List.headD]
  constructor
  · simp only [preprocess_stageflow]
    rw [hparse]
    rw [if_neg (by simp), if_neg (by simp [pfEmpty]), if_neg (by simp [hre])]
    rw [if_pos (by rfl)]
    have hnum : getNumCol
        ⟨["stage_ft", "flow_kcfs"], [⟨0, 0, [Val.num (3 / 2), Val.num 7]⟩]⟩
        "stage_ft" = some [3 / 2] := rfl
    simp only [hnum, hflow]
    rfl
  · intro h
    rw [Val.num.injEq] at h
    norm_num at h

/-- C1 witness: the amended claim instantiated on the same both-columns
record — the output frame has `flow_kcfs` rewritten by interpolation, with
the time index unchanged. -/
theorem preprocess_derives_flow_amended_witness :
    preprocess_stageflow
      [[("validTime", Val.time 0), ("stage_ft", Val.num (3 / 2)),
        ("flow_kcfs", Val.num 7)]] []
      [("stage", [1, 2]), ("flow", [100, 200])] =
      Except.ok (setCol (parse_timeseries
        [[("validTime", Val.time 0), ("stage_ft", Val.num (3 / 2)),
          ("flow_kcfs", Val.num 7)]] []) "flow_kcfs"
        ([some 150].map ovVal)) ∧
    (setCol (parse_timeseries
        [[("validTime", Val.time 0), ("stage_ft", Val.num (3 / 2)),
          ("flow_kcfs", Val.num 7)]] []) "flow_kcfs"
        ([some 150].map ovVal)).rows.map PRow.time =
      (parse_timeseries
        [[("validTime", Val.time 0), ("stage_ft", Val.num (3 / 2)),
          ("flow_kcfs", Val.num 7)]] []).rows.map PRow.time := by
  have hparse : parse_timeseries
      [[("validTime", Val.time 0), ("stage_ft", Val.num (3 / 2)),
        ("flow_kcfs", Val.num 7)]] [] =
      ⟨["stage_ft", "flow_kcfs"], [⟨0, 0, [Val.num (3 / 2), Val.num 7]⟩]⟩ := by
    simp [parse_timeseries, vtRawName, colPairs, rawColumns, addKey,
      applyMap, otherPairs, cellD, toDatetime, mkRow, insSortK, insertK,
      enumFromIdx, replaceNoData, List.lookup, List.filter, List.filterMap]
    norm_num
    rfl
  have hst : (([("stage", [1, 2]), ("flow", [100, 200])] : RatingDict).lookup
      "stage") = some [1, 2] := rfl
  have hfl : (([("stage", [1, 2]), ("flow", [100, 200])] : RatingDict).lookup
      "flow") = some [100, 200] := rfl
  have hre : rEmptyTable [("stage", [1, 2]), ("flow", [100, 200])] = false := rfl
  have hflow : interpolate_flow [3 / 2] [("stage", [1, 2]), ("flow", [100, 200])] =
      Except.ok [some 150] := by
    simp only [interpolate_flow, hre, Bool.false_eq_true, if_false, hst, hfl]
    norm_num [np_interp, np_interp_elem, searchIdx, List.takeWhile,
      List.getLastD, List.headD]
  exact preprocess_derives_flow_amended
    [[("validTime", Val.time 0), ("stage_ft", Val.num (3 / 2)),
      ("flow_kcfs", Val.num 7)]] []
    [("stage", [1, 2]), ("flow", [100, 200])]
    (by simp) (by rw [hparse]; rfl) hre (by rw [hparse]; rfl)
    [3 / 2] (by rw [hparse]; rfl) (by rw [hparse]; rfl)
    [some 150] hflow

theorem qlin_mono {v : List ℚ} (hs : v.Pairwise (· ≤ ·)) (hne : v ≠ [])
    {q q' : ℚ} (h0 : 0 ≤ q) (hqq : q ≤ q') (h1 : q' ≤ 1) :
    qlin q v ≤ qlin q' v := by
  have hm1 : 1 ≤ v.length := List.length_pos.mpr hne
  set n : Nat := v.length - 1 with hn
  have hcast : ((v.length : ℚ) - 1) = (n : ℚ) := by
    rw [hn]
    push_cast [hm1]
    ring
  rw [qlin, qlin]
  simp only [hcast]
  set h : ℚ := q * (n : ℚ) with hh
  set h' : ℚ := q' * (n : ℚ) with hh'
  have hn0 : (0:ℚ) ≤ (n : ℚ) := Nat.cast_nonneg n
  have hh0 : 0 ≤ h := mul_nonneg h0 hn0
  have hhh : h ≤ h' := mul_le_mul_of_nonneg_right hqq hn0
  have hup : h' ≤ (n : ℚ) := by
    calc h' = q' * (n : ℚ) := hh'
    _ ≤ 1 * (n : ℚ) := mul_le_mul_of_nonneg_right h1 hn0
    _ = (n : ℚ) := one_mul _
  have hfl0 : 0 ≤ ⌊h⌋ := Int.floor_nonneg.mpr hh0
  have hfl0' : 0 ≤ ⌊h'⌋ := Int.floor_nonneg.mpr (le_trans hh0 hhh)
  have hfln : ⌊h⌋ ≤ n := by
    have := Int.floor_le_floor (le_trans hhh hup)
    simpa using le_trans (Int.floor_le_floor hhh) (by simpa using Int.floor_le_floor hup)
  have hfln' : ⌊h'⌋ ≤ n := by
    simpa using Int.floor_le_floor hup
  set i : Nat := ⌊h⌋.toNat with hi
  set i' : Nat := ⌊h'⌋.toNat with hi'
  have hin : i ≤ n := by omega
  have hin' : i' ≤ n := by omega
  have hmin : min i n = i := min_eq_left hin
  have hmin' : min i' n = i' := min_eq_left hin'
  have hii : i ≤ i' := by
    have := Int.floor_le_floor hhh
    omega
  have hicast : (i : ℚ) = (⌊h⌋ : ℚ) := by
    rw [hi]
    exact_mod_cast Int.toNat_of_nonneg hfl0
  have hicast' : (i' : ℚ) = (⌊h'⌋ : ℚ) := by
    rw [hi']
    exact_mod_cast Int.toNat_of_nonneg hfl0'
  have hile : (i : ℚ) ≤ h := by
    rw [hicast]
    exact Int.floor_le h
  have hile' : (i' : ℚ) ≤ h' := by
    rw [hicast']
    exact Int.floor_le h'
  have hilt : h < (i : ℚ) + 1 := by
    rw [hicast]
    exact Int.lt_floor_add_one h
  have hlen : n < v.length := by omega
  rw [hmin, hmin']
  rcases Nat.eq_or_lt_of_le hii with hie | hilt2
  · -- same lower index: linear in h with nonnegative slope
    rw [← hie]
    have hlohi : v.getD i 0 ≤ v.getD (min (i + 1) n) 0 :=
      pairwise_le_getD hs (le_min (Nat.le_succ i) hin) (by omega)
    have := mul_le_mul_of_nonneg_right
      (sub_le_sub_right hhh (i : ℚ)) (by linarith : (0:ℚ) ≤ v.getD (min (i + 1) n) 0 - v.getD i 0)
    linarith
  · -- i < i': go up through v[i+1] ≤ v[i']
    have hi1n : i + 1 ≤ n := by omega
    have hminl : min (i + 1) n = i + 1 := min_eq_left hi1n
    rw [hminl]
    have hlohi : v.getD i 0 ≤ v.getD (i + 1) 0 :=
      pairwise_le_getD hs (Nat.le_succ i) (by omega)
    have hd1 : (0:ℚ) ≤ v.getD (i + 1) 0 - v.getD i 0 := by linarith
    have hfrac1 : h - (i:ℚ) ≤ 1 := by linarith
    have hstep1 : v.getD i 0 + (h - (i:ℚ)) * (v.getD (i + 1) 0 - v.getD i 0) ≤
        v.getD (i + 1) 0 := by
      nlinarith [mul_le_mul_of_nonneg_right hfrac1 hd1]
    have hstep2 : v.getD (i + 1) 0 ≤ v.getD i' 0 :=
      pairwise_le_getD hs (by omega) (by omega)
    have hlohi2 : v.getD i' 0 ≤ v.getD (min (i' + 1) n) 0 :=
      pairwise_le_getD hs (le_min (Nat.le_succ i') hin') (by omega)
    have hstep3 : v.getD i' 0 ≤ v.getD i' 0 + (h' - (i':ℚ)) *
        (v.getD (min (i' + 1) n) 0 - v.getD i' 0) := by
      nlinarith [mul_nonneg (by linarith : (0:ℚ) ≤ h' - (i':ℚ))
        (by linarith : (0:ℚ) ≤ v.getD (min (i' + 1) n) 0 - v.getD i' 0)]
    linarith

theorem insSortK_isEmpty {α β : Type} [LinearOrder β] (key : α → β)
    (l : List α) : (insSortK key l).isEmpty = l.isEmpty := by
  cases hl : l.isEmpty with
  | true =>
    rw [List.isEmpty_iff] at hl
    rw [hl]
    rfl
  | false =>
    rw [List.isEmpty_eq_false_iff_exists_mem] at hl
    obtain ⟨a, ha⟩ := hl
    rw [List.isEmpty_eq_false_iff_exists_mem]
    exact ⟨a, (mem_insSortK key a l).mpr ha⟩

theorem quantileOfRow_mono (cells : List (Option ℚ)) {q q' : ℚ}
    (h0 : 0 ≤ q) (hqq : q ≤ q') (h1 : q' ≤ 1) :
    OptLe (quantileOfRow q cells) (quantileOfRow q' cells) := by
  rw [quantileOfRow, quantileOfRow]
  by_cases he : (insSortK id (cells.filterMap id)).isEmpty
  · rw [if_pos he, if_pos he]
    trivial
  · rw [if_neg he, if_neg he]
    have hne : insSortK id (cells.filterMap id) ≠ [] := by
      intro hcontra
      rw [hcontra] at he
      exact he rfl
    have hsorted : (insSortK id (cells.filterMap id)).Pairwise (· ≤ ·) := by
      have := insSortK_sorted id (cells.filterMap id)
      exact this
    exact qlin_mono hsorted hne h0 hqq h1

theorem rawPercSeries_rel (e : Ensemble) {q q' : ℚ} (h0 : 0 ≤ q)
    (hqq : q ≤ q') (h1 : q' ≤ 1) :
    List.Forall₂ EntryLe (rawPercSeries e q) (rawPercSeries e q') := by
  rw [rawPercSeries, rawPercSeries]
  induction e.rows with
  | nil => exact List.Forall₂.nil
  | cons r t ih =>
    simp only [List.map_cons]
    exact List.Forall₂.cons ⟨rfl, quantileOfRow_mono r.2 h0 hqq h1⟩ ih

theorem lookup_rel {s s' : Series} (h : List.Forall₂ EntryLe s s') (t : ℤ) :
    (s.lookup t = none ∧ s'.lookup t = none) ∨
    (∃ v w, s.lookup t = some v ∧ s'.lookup t = some w ∧ OptLe v w) := by
  induction h with
  | nil => exact Or.inl ⟨rfl, rfl⟩
  | cons hx hrest ih =>
    rename_i x y s1 s1'
    obtain ⟨x1, x2⟩ := x
    obtain ⟨y1, y2⟩ := y
    obtain ⟨ht, hv⟩ := hx
    simp only at ht
    subst ht
    rw [List.lookup_cons, List.lookup_cons]
    by_cases he : t == x1
    · simp only [he]
      exact Or.inr ⟨x2, y2, rfl, rfl, hv⟩
    · simp only [Bool.not_eq_true] at he
      rw [he]
      exact ih

theorem valids_rel {s s' : Series} (h : List.Forall₂ EntryLe s s') :
    List.Forall₂ (fun a b => a.1 = b.1 ∧ a.2 ≤ b.2)
      (seriesValids s) (seriesValids s') := by
  induction h with
  | nil => exact List.Forall₂.nil
  | cons hx hrest ih =>
    rename_i x y s1 s1'
    obtain ⟨x1, x2⟩ := x
    obtain ⟨y1, y2⟩ := y
    obtain ⟨ht, hv⟩ := hx
    simp only at ht
    subst ht
    rw [seriesValids, seriesValids] at *
    cases x2 with
    | none =>
      cases y2 with
      | none => simpa [List.filterMap_cons] using ih
      | some b => simp [OptLe] at hv
    | some a =>
      cases y2 with
      | none => simp [OptLe] at hv
      | some b =>
        simp only [List.filterMap_cons, Option.map_some']
        exact List.Forall₂.cons ⟨rfl, hv⟩ ih

theorem filter_fst_rel {l l' : List (ℤ × ℚ)}
    (h : List.Forall₂ (fun a b => a.1 = b.1 ∧ a.2 ≤ b.2) l l') (p : ℤ → Bool) :
    List.Forall₂ (fun a b => a.1 = b.1 ∧ a.2 ≤ b.2)
      (l.filter (fun x => p x.1)) (l'.filter (fun x => p x.1)) := by
  induction h with
  | nil => exact List.Forall₂.nil
  | cons hx hrest ih =>
    rename_i a b l1 l2
    obtain ⟨ht, hv⟩ := hx
    rw [List.filter_cons, List.filter_cons, ← ht]
    by_cases hp : p a.1
    · rw [if_pos hp, if_pos hp]
      exact List.Forall₂.cons ⟨ht, hv⟩ ih
    · rw [if_neg hp, if_neg hp]
      exact ih

theorem forall₂_getLast? {α β : Type} {R : α → β → Prop} {l : List α}
    {l' : List β} (h : List.Forall₂ R l l') :
    (l.getLast? = none ∧ l'.getLast? = none) ∨
    (∃ a b, l.getLast? = some a ∧ l'.getLast? = some b ∧ R a b) := by
  induction h with
  | nil => exact Or.inl ⟨rfl, rfl⟩
  | cons hx hrest ih =>
    rename_i a b l1 l2
    cases hrest with
    | nil => exact Or.inr ⟨a, b, rfl, rfl, hx⟩
    | cons hz hrest2 =>
      rename_i c d l3 l4
      rcases ih with ⟨h1, _⟩ | ⟨u, w, h1, h2, huw⟩
      · rw [List.getLast?_eq_none_iff] at h1
        simp at h1
      · refine Or.inr ⟨u, w, ?_, ?_, huw⟩
        · rw [List.getLast?_cons_cons]
          exact h1
        · rw [List.getLast?_cons_cons]
          exact h2

theorem forall₂_head? {α β : Type} {R : α → β → Prop} {l : List α}
    {l' : List β} (h : List.Forall₂ R l l') :
    (l.head? = none ∧ l'.head? = none) ∨
    (∃ a b, l.head? = some a ∧ l'.head? = some b ∧ R a b) := by
  cases h with
  | nil => exact Or.inl ⟨rfl, rfl⟩
  | cons hx hrest => exact Or.inr ⟨_, _, rfl, rfl, hx⟩

theorem interp_formula_mono {va vb va' vb' A B : ℚ} (hva : va ≤ va')
    (hvb : vb ≤ vb') (hA : 0 < A) (hAB : A ≤ B) :
    va + (vb - va) * A / B ≤ va' + (vb' - va') * A / B := by
  have hB : 0 < B := lt_of_lt_of_le hA hAB
  have hw1 : 0 ≤ A / B := le_of_lt (div_pos hA hB)
  have hw2 : A / B ≤ 1 := (div_le_one hB).mpr hAB
  have e1 : va + (vb - va) * A / B = va * (1 - A / B) + vb * (A / B) := by
    ring
  have e2 : va' + (vb' - va') * A / B = va' * (1 - A / B) + vb' * (A / B) := by
    ring
  rw [e1, e2]
  exact add_le_add (mul_le_mul_of_nonneg_right hva (by linarith))
    (mul_le_mul_of_nonneg_right hvb hw1)

theorem getLast?_mem_of_eq {α : Type} {l : List α} {a : α}
    (h : l.getLast? = some a) : a ∈ l := by
  induction l with
  | nil => simp at h
  | cons b t ih =>
    cases t with
    | nil =>
      simp only [List.getLast?_singleton, Option.some.injEq] at h
      rw [← h]
      exact List.mem_cons_self b []
    | cons c u =>
      rw [List.getLast?_cons_cons] at h
      exact List.mem_cons_of_mem _ (ih h)

theorem head?_mem_of_eq {α : Type} {l : List α} {a : α}
    (h : l.head? = some a) : a ∈ l := by
  cases l with
  | nil => simp at h
  | cons b t =>
    simp only [List.head?_cons, Option.some.injEq] at h
    rw [← h]
    exact List.mem_cons_self b t

theorem timeInterpGap_rel {s s' : Series} (h : List.Forall₂ EntryLe s s')
    (t : ℤ) : OptLe (timeInterpGap s t) (timeInterpGap s' t) := by
  rw [timeInterpGap, timeInterpGap]
  have hva := valids_rel h
  have hbefore := filter_fst_rel hva (fun z => decide (z < t))
  have hafter := filter_fst_rel hva (fun z => decide (t < z))
  rcases forall₂_getLast? hbefore with ⟨hb1, hb2⟩ | ⟨a, b, hb1, hb2, hab1, hab2⟩
  · rw [hb1, hb2]
    trivial
  · rcases forall₂_head? hafter with ⟨ha1, ha2⟩ | ⟨c, d, ha1, ha2, hcd1, hcd2⟩
    · rw [hb1, hb2, ha1, ha2]
      exact hab2
    · rw [hb1, hb2, ha1, ha2]
      have hat : a.1 < t := by
        have := getLast?_mem_of_eq hb1
        rw [List.mem_filter] at this
        simpa using this.2
      have hct : t < c.1 := by
        have := head?_mem_of_eq ha1
        rw [List.mem_filter] at this
        simpa using this.2
      show a.2 + (c.2 - a.2) * ((t - a.1 : ℤ) : ℚ) / ((c.1 - a.1 : ℤ) : ℚ) ≤
        b.2 + (d.2 - b.2) * ((t - b.1 : ℤ) : ℚ) / ((d.1 - b.1 : ℤ) : ℚ)
      rw [← hab1, ← hcd1]
      have hA : (0:ℚ) < ((t - a.1 : ℤ) : ℚ) := by
        exact_mod_cast sub_pos.mpr hat
      have hAB : ((t - a.1 : ℤ) : ℚ) ≤ ((c.1 - a.1 : ℤ) : ℚ) := by
        exact_mod_cast sub_le_sub_right (le_of_lt hct) a.1
      exact interp_formula_mono hab2 hcd2 hA hAB

theorem timeInterpAt_rel {s s' : Series} (h : List.Forall₂ EntryLe s s')
    (t : ℤ) : OptLe (timeInterpAt s t) (timeInterpAt s' t) := by
  rw [timeInterpAt, timeInterpAt]
  rcases lookup_rel h t with ⟨h1, h2⟩ | ⟨v, w, h1, h2, hvw⟩
  · rw [h1, h2]
    exact timeInterpGap_rel h t
  · rw [h1, h2]
    cases v with
    | none =>
      cases w with
      | none => exact timeInterpGap_rel h t
      | some b => simp [OptLe] at hvw
    | some a =>
      cases w with
      | none => simp [OptLe] at hvw
      | some b => exact hvw

theorem percKeys_bounds : ∀ p ∈ percKeys, 0 ≤ p.2 ∧ p.2 ≤ 1 := by
  intro p hp
  simp only [percKeys, List.mem_cons, List.not_mem_nil, or_false] at hp
  rcases hp with rfl | rfl | rfl | rfl | rfl | rfl | rfl <;> norm_num

theorem percKeys_lookup (f : String × ℚ → Series) {k : String} {q : ℚ}
    (hk : (k, q) ∈ percKeys) :
    (percKeys.map (fun p => (p.1, f p))).lookup k = some (f (k, q)) := by
  simp only [percKeys, List.mem_cons, List.not_mem_nil, or_false,
    Prod.mk.injEq] at hk
  rcases hk with ⟨rfl, rfl⟩ | ⟨rfl, rfl⟩ | ⟨rfl, rfl⟩ | ⟨rfl, rfl⟩ |
    ⟨rfl, rfl⟩ | ⟨rfl, rfl⟩ | ⟨rfl, rfl⟩ <;> rfl

theorem lookup_graph {g : List ℤ} {f : ℤ → Option ℚ} {t : ℤ} {v : Option ℚ}
    (h : (g.map (fun u => (u, f u))).lookup t = some v) : v = f t := by
  induction g with
  | nil => simp [List.lookup] at h
  | cons u g2 ih =>
    rw [List.map_cons, List.lookup_cons] at h
    by_cases he : t == u
    · simp only [he] at h
      have ht : t = u := eq_of_beq he
      rw [ht]
      exact (Option.some.inj h).symm
    · simp only [Bool.not_eq_true] at he
      rw [he] at h
      exact ih h

theorem resample_lookup {s : Series} {t : ℤ} {v : Option ℚ}
    (h : (resampleHourly s).lookup t = some v) : v = timeInterpAt s t := by
  cases s with
  | nil =>
    rw [resampleHourly] at h
    simp [List.lookup] at h
  | cons e rest =>
    rw [resampleHourly] at h
    exact lookup_graph h

theorem lookup_map_series {l : List (String × Series)} (f : Series → Series)
    (k : String) :
    (l.map (fun p => (p.1, f p.2))).lookup k = (l.lookup k).map f := by
  induction l with
  | nil => rfl
  | cons a tl ih =>
    obtain ⟨a1, a2⟩ := a
    rw [List.map_cons, List.lookup_cons, List.lookup_cons]
    by_cases he : k == a1
    · simp only [he]
      rfl
    · simp only [Bool.not_eq_true] at he
      rw [he]
      exact ih

theorem lookup_map_entry {s : Series} (g : Option ℚ → Option ℚ) (t : ℤ) :
    (s.map (fun x => (x.1, g x.2))).lookup t = (s.lookup t).map g := by
  induction s with
  | nil => rfl
  | cons a tl ih =>
    obtain ⟨a1, a2⟩ := a
    rw [List.map_cons, List.lookup_cons, List.lookup_cons]
    by_cases he : t == a1
    · simp only [he]
      rfl
    · simp only [Bool.not_eq_true] at he
      rw [he]
      exact ih

/-- C6: at every timestamp where two percentile levels are both defined, the
lower level's value is at most the higher level's — for the hourly
flow-space bands of `compute_percentile_bands`, and, for a monotone rating
curve (flow strictly increasing, stage non-decreasing: the spec's
RatingCurve invariant), also after the stage projection performed by
`compute_and_interpolate_percentiles`.  Instantiating `(k, q) ≤ (k', q')`
over adjacent pairs of the seven keys gives `p05 ≤ p10 ≤ … ≤ p95`. -/
theorem percentile_bands_ordered (e : Ensemble) (d : RatingDict)
    (flc stc : List ℚ) (hfl : d.lookup "flow" = some flc)
    (hst : d.lookup "stage" = some stc) (hlen : stc.length = flc.length)
    (hfs : flc.Pairwise (· < ·)) (hss : stc.Pairwise (· ≤ ·))
    {k k' : String} {q q' : ℚ} (hk : (k, q) ∈ percKeys)
    (hk' : (k', q') ∈ percKeys) (hqq : q ≤ q') (t : ℤ) :
    (∀ a b, bandAt (compute_percentile_bands e) k t = some a →
      bandAt (compute_percentile_bands e) k' t = some b → a ≤ b) ∧
    (∀ m a b, compute_and_interpolate_percentiles e d = Except.ok m →
      bandAt m k t = some a → bandAt m k' t = some b → a ≤ b) := by
  have hq0 : 0 ≤ q := (percKeys_bounds (k, q) hk).1
  have hq1 : q' ≤ 1 := (percKeys_bounds (k', q') hk').2
  have hflow : ∀ a b, bandAt (compute_percentile_bands e) k t = some a →
      bandAt (compute_percentile_bands e) k' t = some b → a ≤ b := by
    intro a b ha hb
    rw [bandAt] at ha hb
    rw [compute_percentile_bands] at ha hb
    by_cases hke : ensKeptEmpty e
    · rw [if_pos hke, percKeys_lookup (fun _ => ([] : Series)) hk] at ha
      have ha2 : (match (List.lookup t ([] : Series)) with
        | some v => v
        | none => none) = some a := ha
      simp [List.lookup] at ha2
    · rw [if_neg hke,
        percKeys_lookup (fun p => resampleHourly (rawPercSeries e p.2)) hk] at ha
      rw [if_neg hke,
        percKeys_lookup (fun p => resampleHourly (rawPercSeries e p.2)) hk'] at hb
      have ha2 : (match (resampleHourly (rawPercSeries e q)).lookup t with
        | some v => v
        | none => none) = some a := ha
      have hb2 : (match (resampleHourly (rawPercSeries e q')).lookup t with
        | some v => v
        | none => none) = some b := hb
      cases hla : (resampleHourly (rawPercSeries e q)).lookup t with
      | none => rw [hla] at ha2; simp at ha2
      | some v =>
        cases hlb : (resampleHourly (rawPercSeries e q')).lookup t with
        | none => rw [hlb] at hb2; simp at hb2
        | some w =>
          rw [hla] at ha2
          rw [hlb] at hb2
          have hva : v = some a := ha2
          have hwb : w = some b := hb2
          have hv := resample_lookup hla
          have hw := resample_lookup hlb
          have hrel := timeInterpAt_rel (rawPercSeries_rel e hq0 hqq hq1) t
          rw [← hv, ← hw, hva, hwb] at hrel
          exact hrel
  refine ⟨hflow, ?_⟩
  intro m a b hm ha hb
  rw [compute_and_interpolate_percentiles] at hm
  by_cases hee : ensEmpty e
  · rw [if_pos hee] at hm
    have hm0 : m = [] := (Except.ok.inj hm).symm
    rw [hm0, bandAt] at ha
    simp [List.lookup] at ha
  · rw [if_neg hee, hfl, hst] at hm
    have hm2 : (if flc.isEmpty = true then Except.error PyErr.valueError
        else if flc.length ≠ stc.length then Except.error PyErr.valueError
        else Except.ok ((compute_percentile_bands e).map (fun p =>
          (p.1, p.2.map (fun x =>
            (x.1, x.2.map (fun v => np_interp_elem v flc stc))))))) =
        Except.ok m := hm
    by_cases hfe : flc.isEmpty
    · rw [if_pos hfe] at hm2
      simp at hm2
    · rw [if_neg hfe, if_neg (by omega)] at hm2
      have hm3 : m = (compute_percentile_bands e).map (fun p =>
          (p.1, p.2.map (fun x =>
            (x.1, x.2.map (fun v => np_interp_elem v flc stc))))) :=
        (Except.ok.inj hm2).symm
      have hflne : flc ≠ [] := by
        intro hcontra
        rw [hcontra] at hfe
        exact hfe rfl
      rw [hm3, bandAt,
        lookup_map_series (fun s2 => s2.map (fun x =>
          (x.1, x.2.map (fun v => np_interp_elem v flc stc)))) k] at ha
      rw [hm3, bandAt,
        lookup_map_series (fun s2 => s2.map (fun x =>
          (x.1, x.2.map (fun v => np_interp_elem v flc stc)))) k'] at hb
      cases hbk : (compute_percentile_bands e).lookup k with
      | none => rw [hbk] at ha; simp at ha
      | some s =>
        cases hbk' : (compute_percentile_bands e).lookup k' with
        | none => rw [hbk'] at hb; simp at hb
        | some s' =>
          rw [hbk] at ha
          rw [hbk'] at hb
          simp only [Option.map_some'] at ha hb
          rw [lookup_map_entry (fun o => o.map
            (fun v => np_interp_elem v flc stc)) t] at ha hb
          cases hlv : s.lookup t with
          | none => rw [hlv] at ha; simp at ha
          | some v =>
            cases hlw : s'.lookup t with
            | none => rw [hlw] at hb; simp at hb
            | some w =>
              rw [hlv] at ha
              rw [hlw] at hb
              simp only [Option.map_some'] at ha hb
              cases v with
              | none => simp at ha
              | some x =>
                cases w with
                | none => simp at hb
                | some y =>
                  simp only [Option.map_some', Option.some.injEq] at ha hb
                  have hax : bandAt (compute_percentile_bands e) k t =
                      some x := by
                    rw [bandAt, hbk]
                    show (match s.lookup t with
                      | some v => v
                      | none => none) = some x
                    rw [hlv]
                  have hby : bandAt (compute_percentile_bands e) k' t =
                      some y := by
                    rw [bandAt, hbk']
                    show (match s'.lookup t with
                      | some v => v
                      | none => none) = some y
                    rw [hlw]
                  have hxy : x ≤ y := hflow x y hax hby
                  rw [← ha, ← hb]
                  exact np_interp_elem_mono hfs hss hlen hflne hxy

/-- C6 witness: a one-timestamp two-member ensemble with values 10 and 30:
the p05 band value 11 and the p95 band value 29 are ordered. -/
theorem percentile_bands_ordered_witness :
    bandAt (compute_percentile_bands
      ⟨["a", "b"], [(0, [some 10, some 30])]⟩) "p05" 0 = some 11 ∧
    bandAt (compute_percentile_bands
      ⟨["a", "b"], [(0, [some 10, some 30])]⟩) "p95" 0 = some 29 ∧
    (11 : ℚ) ≤ 29 := by
  have hq05 : quantileOfRow (5 / 100) [some 10, some 30] = some 11 := by
    rw [quantileOfRow]
    norm_num [insSortK, insertK, qlin]
  have hq95 : quantileOfRow (95 / 100) [some 10, some 30] = some 29 := by
    rw [quantileOfRow]
    norm_num [insSortK, insertK, qlin]
  have hraw05 : rawPercSeries ⟨["a", "b"], [(0, [some 10, some 30])]⟩
      (5 / 100) = [(0, some 11)] := by
    rw [rawPercSeries]
    simp [hq05]
  have hraw95 : rawPercSeries ⟨["a", "b"], [(0, [some 10, some 30])]⟩
      (95 / 100) = [(0, some 29)] := by
    rw [rawPercSeries]
    simp [hq95]
  have hres : ∀ z : ℚ, resampleHourly [((0 : ℤ), some z)] = [(0, some z)] := by
    intro z
    rfl
  have hkeep : ensKeptEmpty ⟨["a", "b"], [(0, [some 10, some 30])]⟩ = false := by
    rfl
  have hmem05 : (("p05", 5 / 100) : String × ℚ) ∈ percKeys := by
    simp [percKeys]
  have hmem95 : (("p95", 95 / 100) : String × ℚ) ∈ percKeys := by
    simp [percKeys]
  have hband05 : bandAt (compute_percentile_bands
      ⟨["a", "b"], [(0, [some 10, some 30])]⟩) "p05" 0 = some 11 := by
    rw [bandAt, compute_percentile_bands, if_neg (by rw [hkeep]; simp),
      percKeys_lookup (fun p => resampleHourly
        (rawPercSeries ⟨["a", "b"], [(0, [some 10, some 30])]⟩ p.2)) hmem05]
    show (match (resampleHourly (rawPercSeries
        ⟨["a", "b"], [(0, [some 10, some 30])]⟩ (5 / 100))).lookup 0 with
      | some v => v
      | none => none) = some 11
    rw [hraw05, hres]
    rfl
  have hband95 : bandAt (compute_percentile_bands
      ⟨["a", "b"], [(0, [some 10, some 30])]⟩) "p95" 0 = some 29 := by
    rw [bandAt, compute_percentile_bands, if_neg (by rw [hkeep]; simp),
      percKeys_lookup (fun p => resampleHourly
        (rawPercSeries ⟨["a", "b"], [(0, [some 10, some 30])]⟩ p.2)) hmem95]
    show (match (resampleHourly (rawPercSeries
        ⟨["a", "b"], [(0, [some 10, some 30])]⟩ (95 / 100))).lookup 0 with
      | some v => v
      | none => none) = some 29
    rw [hraw95, hres]
    rfl
  have hmain := (percentile_bands_ordered
    ⟨["a", "b"], [(0, [some 10, some 30])]⟩
    [("stage", [1, 2]), ("flow", [100, 200])] [100, 200] [1, 2]
    rfl rfl rfl (by norm_num [List.pairwise_cons])
    (by norm_num [List.pairwise_cons]) hmem05 hmem95 (by norm_num) 0).1
  exact ⟨hband05, hband95, hmain 11 29 hband05 hband95⟩
